import Mathlib

/-!
Verification of the ÚFAL biblio scraper (`scrape_biblio.py`) against its
specification.  The Python source is shallowly embedded: strings are
`List Char` / `String`, dictionaries that are only iterated in insertion
order become association lists, and the small number of external-library
behaviours (Unicode NFKD data, `difflib.SequenceMatcher`, the `re` engine
on the two concrete patterns used) are modelled by executable Lean
functions that follow the documented behaviour of those libraries on the
patterns actually used by the program.
-/

namespace ScrapeBiblio

/-! ### Character-level model

Python's `\s` class, the three punctuation characters handled by
`normalize_text`, and ASCII lower-casing (`str.lower` restricted to the
ASCII range, which is all the proofs below exercise). -/

/-- Whitespace, as in Python's `\s` and `str.split()` (ASCII part). -/
def isPyWs (c : Char) : Bool :=
  c == ' ' || c == '\t' || c == '\n' || c == '\r' || c == '\x0b' || c == '\x0c'

/-- The three characters matched by the group in `re.sub(r"\s*([:,;])\s+", r" ", text)`. -/
def isPunct3 (c : Char) : Bool :=
  c == ':' || c == ',' || c == ';'

/-- Combining marks (`unicodedata.combining(ch) != 0`), modelled by the
Combining Diacritical Marks block, which covers every mark produced by the
decomposition table below. -/
def isCombining (c : Char) : Bool :=
  decide (0x300 ≤ c.toNat) && decide (c.toNat ≤ 0x36F)

/-- Decomposition table for `unicodedata.normalize("NFKD", ...)`.  The full
Unicode database is external to the repository; the table holds a
representative selection of letters with diacritics (base letter followed by
a combining mark) together with *every* Unicode character whose
compatibility decomposition contains a colon, comma or semicolon
(U+037E, U+2A74, U+FE10, U+FE13, U+FE14, U+FE50, U+FE54, U+FE55, U+FF0C,
U+FF1A, U+FF1B and U+1F101..U+1F10A), so that counting `[:,;]` characters
after decomposition is faithful; the default for characters outside the
table is the identity. -/
def nfkdTable : List (Char × List Char) :=
  [('\u0161', ['s', '\u030C']), ('\u0160', ['S', '\u030C']),
   ('\u00E9', ['e', '\u0301']), ('\u00C9', ['E', '\u0301']),
   ('\u0159', ['r', '\u030C']), ('\u0130', ['I', '\u0307']),
   ('\u037E', [';']), ('\u2A74', [':', ':', '=']),
   ('\uFE10', [',']), ('\uFE13', [':']), ('\uFE14', [';']),
   ('\uFE50', [',']), ('\uFE54', [';']), ('\uFE55', [':']),
   ('\uFF0C', [',']), ('\uFF1A', [':']), ('\uFF1B', [';']),
   (Char.ofNat 0x1F101, ['0', ',']), (Char.ofNat 0x1F102, ['1', ',']),
   (Char.ofNat 0x1F103, ['2', ',']), (Char.ofNat 0x1F104, ['3', ',']),
   (Char.ofNat 0x1F105, ['4', ',']), (Char.ofNat 0x1F106, ['5', ',']),
   (Char.ofNat 0x1F107, ['6', ',']), (Char.ofNat 0x1F108, ['7', ',']),
   (Char.ofNat 0x1F109, ['8', ',']), (Char.ofNat 0x1F10A, ['9', ','])]

/-- NFKD decomposition of one character: look the character up in the
table, defaulting to the identity. -/
def nfkdChar (c : Char) : List Char :=
  match nfkdTable.find? (fun p => p.1 == c) with
  | some p => p.2
  | none => [c]

/-- `re.sub(r"[‘’´`]", "'", text)` and `re.sub(r'[“”„‟″]', '"', text)` from
`normalize_text`, as a single character map. -/
def quoteMap (c : Char) : Char :=
  if c = '\u2018' ∨ c = '\u2019' ∨ c = '\u00B4' ∨ c = '\u0060' then '\u0027'
  else if c = '\u201C' ∨ c = '\u201D' ∨ c = '\u201E' ∨ c = '\u201F' ∨ c = '\u2033' then '\u0022'
  else c

/-- Bullet glyphs removed by `re.sub(r"[●○•‣◦▪▫◆◇]", " ", text)`. -/
def isBullet (c : Char) : Bool :=
  c == '●' || c == '○' || c == '•' || c == '‣' || c == '◦' ||
    c == '▪' || c == '▫' || c == '◆' || c == '◇'

/-- Replacement of bullet glyphs by a space, as a character map. -/
def bulletMap (c : Char) : Char :=
  if isBullet c then ' ' else c

/-- Python `str.lower()`, modelled on the ASCII range (all characters the
claims exercise; non-ASCII characters are left unchanged). -/
def pyLower (c : Char) : Char :=
  if 65 ≤ c.toNat ∧ c.toNat ≤ 90 then Char.ofNat (c.toNat + 32) else c

/-- `\w` of Python's `re` module, restricted to ASCII. -/
def isWordChar (c : Char) : Bool :=
  c.isAlpha || c.isDigit || c == '_'

/-! ### List-of-characters utilities shared by several functions -/

/-- NFKD-decompose and drop combining marks: the body of `strip_accents` and
the first two lines of `normalize_text`. -/
def nfkdStrip (l : List Char) : List Char :=
  ((l.map nfkdChar).flatten).filter (fun c => !isCombining c)

/-- Collapse every maximal whitespace run to a single space:
`re.sub(r"\s+", " ", s)`. -/
def collapseWs : List Char → List Char
  | [] => []
  | [c] => if isPyWs c then [' '] else [c]
  | c :: d :: cs =>
    if isPyWs c then
      (if isPyWs d then collapseWs (d :: cs) else ' ' :: collapseWs (d :: cs))
    else c :: collapseWs (d :: cs)

/-- Drop trailing whitespace (the right half of `str.strip()`). -/
def dropTrailWs : List Char → List Char
  | [] => []
  | c :: cs =>
    if (dropTrailWs cs).isEmpty then (if isPyWs c then [] else [c])
    else c :: dropTrailWs cs

/-- Python `str.strip()`: drop leading and trailing whitespace. -/
def trimWs (l : List Char) : List Char :=
  dropTrailWs (l.dropWhile isPyWs)

/-- Substring test on character lists: Python's `needle in hay`. -/
def pyInL (needle hay : List Char) : Bool :=
  hay.tails.any (fun t => needle.isPrefixOf t)

/-- Substring test on strings: Python's `needle in hay`. -/
def pyIn (needle hay : String) : Bool :=
  pyInL needle.toList hay.toList

/-- Helper of `pySplit`: accumulate the current word (reversed) while
scanning. -/
def splitWsAux : List Char → List Char → List (List Char)
  | acc, [] => if acc.isEmpty then [] else [acc.reverse]
  | acc, c :: cs =>
    if isPyWs c then
      (if acc.isEmpty then splitWsAux [] cs else acc.reverse :: splitWsAux [] cs)
    else splitWsAux (c :: acc) cs

/-- Python `str.split()` with no argument: split on whitespace runs,
discarding empty words. -/
def pySplit (l : List Char) : List (List Char) :=
  splitWsAux [] l

/-- Value of an ASCII digit character. -/
def digitVal (c : Char) : Nat :=
  c.toNat - 48

/-- Natural number denoted by a list of ASCII digits. -/
def natOfDigits (ds : List Char) : Nat :=
  ds.foldl (fun n c => n * 10 + digitVal c) 0

/-! ### The punctuation-spacing pass of `normalize_text`

`re.sub(r"\s*([:,;])\s+", r" ", text)` — scan left to right; at each
position greedily take whitespace, require one of `: , ;` and at least one
following whitespace character, and replace the whole match by one space,
continuing after the match.  Implemented with a fuel argument (the string
length) so that it is structurally recursive and kernel-evaluable. -/

/-- Leftmost-match attempt of `\s*([:,;])\s+` at the start of `l`; returns
the number of characters matched. -/
def pmatchAt (l : List Char) : Option Nat :=
  match l.dropWhile isPyWs with
  | p :: r =>
    if isPunct3 p then
      (let n2 := (r.takeWhile isPyWs).length
       if 0 < n2 then some ((l.takeWhile isPyWs).length + 1 + n2) else none)
    else none
  | [] => none

/-- Fuelled scanner for the substitution. -/
def pfAux : Nat → List Char → List Char
  | 0, l => l
  | Nat.succ n, l =>
    match l with
    | [] => []
    | c :: cs =>
      match pmatchAt (c :: cs) with
      | some k => ' ' :: pfAux n ((c :: cs).drop k)
      | none => c :: pfAux n cs

/-- The substitution `re.sub(r"\s*([:,;])\s+", r" ", text)`. -/
def punctSpaceFix (l : List Char) : List Char :=
  pfAux l.length l

/-! ### `normalize_text`, `clean_whitespace`, `strip_accents` -/

/-- Body of `normalize_text` on character lists, one step per source line. -/
def normChars (lowercase : Bool) (l : List Char) : List Char :=
  let t1 := nfkdStrip l
  let t2 := t1.map quoteMap
  let t3 := t2.map bulletMap
  let t4 := trimWs (collapseWs t3)
  let t5 := trimWs (punctSpaceFix t4)
  if lowercase then t5.map pyLower else t5

/-- `normalize_text(text, lowercase)` from the source. -/
def normalize_text (s : String) (lowercase : Bool) : String :=
  ⟨normChars lowercase s.toList⟩

/-- `clean_whitespace(s) = re.sub(r"\s+", " ", s).strip()`. -/
def clean_whitespace (s : String) : String :=
  ⟨trimWs (collapseWs s.toList)⟩

/-- `strip_accents(text)`: NFKD then drop combining marks. -/
def strip_accents (s : String) : String :=
  ⟨nfkdStrip s.toList⟩

/-- Python `str.lower()` lifted to strings (ASCII model). -/
def pyLowerStr (s : String) : String :=
  ⟨s.toList.map pyLower⟩

/-! ### `longest_common_word_substring`

`difflib.SequenceMatcher(None, a_words, b_words).find_longest_match(...)` is
external library code; it is modelled from its source.  With the
constructor's defaults `isjunk=None` and `autojunk=True`, `__chain_b`
leaves the junk set empty and purges the "popular" elements of `b` (those
occurring more than `len(b)//100 + 1` times, once `len(b) >= 200`) from the
index `b2j`.  The `j2len` loop of `find_longest_match` therefore finds the
longest block of contiguous equal elements whose `b`-side elements are all
non-popular (ties resolved by the earliest start in `a`, then in `b`), and
the first pair of extension loops then extends that block over equal
elements on both ends (`not isbjunk(...)` always holds, popular elements
included); the final junk-extension loops are no-ops. -/

/-- An element of `b` purged from the index `b2j` by the `autojunk`
heuristic of `SequenceMatcher.__chain_b`. -/
def isPopular (bw : List (List Char)) (w : List Char) : Bool :=
  decide (200 ≤ bw.length) && decide (bw.length / 100 + 1 < bw.count w)

/-- Length of the longest common prefix of two word lists. -/
def commonPrefixLen : List (List Char) → List (List Char) → Nat
  | a :: as, b :: bs => if a = b then commonPrefixLen as bs + 1 else 0
  | _, _ => 0

/-- Length of the longest common prefix whose right-hand elements all avoid
the purged set `pop`: the block the `j2len` loop can grow from a given pair
of start positions. -/
def popFreeRun (pop : List Char → Bool) : List (List Char) → List (List Char) → Nat
  | a :: as, b :: bs => if a = b ∧ pop b = false then popFreeRun pop as bs + 1 else 0
  | _, _ => 0

/-- One comparison of the longest-matching-block search: update the best
`(i, j, size)` triple when the popular-free block starting at `(i, j)` is
strictly longer. -/
def flmStep (aw bw : List (List Char)) (i : Nat) (acc : Nat × Nat × Nat) (j : Nat) :
    Nat × Nat × Nat :=
  if acc.2.2 < popFreeRun (isPopular bw) (aw.drop i) (bw.drop j) then
    (i, j, popFreeRun (isPopular bw) (aw.drop i) (bw.drop j))
  else acc

/-- The `j2len` search: the longest popular-free matching block `(i, j,
size)` between two word sequences, earliest start first. -/
def flmCore (aw bw : List (List Char)) : Nat × Nat × Nat :=
  (List.range aw.length).foldl
    (fun acc i => (List.range bw.length).foldl (flmStep aw bw i) acc)
    (0, 0, 0)

/-- The first extension loop: extend the best block to the left over equal
elements (the junk set is empty, so the `not isbjunk(...)` conjunct always
holds). -/
def extendLeft (aw bw : List (List Char)) : Nat → Nat → Nat → Nat × Nat × Nat
  | i + 1, j + 1, size =>
    if (aw[i]?).isSome ∧ aw[i]? = bw[j]? then extendLeft aw bw i j (size + 1)
    else (i + 1, j + 1, size)
  | i, j, size => (i, j, size)

/-- The second extension loop: extend the block to the right over equal
elements.  The fuel argument only bounds the recursion; it is instantiated
with `aw.length`, beyond which the index check fails anyway. -/
def extendRight (aw bw : List (List Char)) (i j : Nat) : Nat → Nat → Nat
  | 0, size => size
  | fuel + 1, size =>
    if (aw[i + size]?).isSome ∧ aw[i + size]? = bw[j + size]? then
      extendRight aw bw i j fuel (size + 1)
    else size

/-- `find_longest_match` of `SequenceMatcher(None, aw, bw)` over the whole
sequences: the best popular-free block, extended on both ends. -/
def findLongestMatch (aw bw : List (List Char)) : Nat × Nat × Nat :=
  let core := flmCore aw bw
  let left := extendLeft aw bw core.1 core.2.1 core.2.2
  (left.1, left.2.1, extendRight aw bw left.1 left.2.1 aw.length left.2.2)

/-- `longest_common_word_substring(a, b)`: the longest common contiguous run
of words, returned as the words of `a` it consists of. -/
def longest_common_word_substring (a b : String) : List (List Char) :=
  let aWords := pySplit a.toList
  let bWords := pySplit b.toList
  let m := findLongestMatch aWords bWords
  if m.2.2 = 0 then [] else (aWords.drop m.1).take m.2.2

/-! ### `find_additional_link` -/

/-- Loop body of the fallback scan in `find_additional_link`: keep the
longest `longest_common_word_substring` seen so far and the file it came
from, updating only on strict improvement. -/
def bestLcsStep (normTitle : String) (acc : List (List Char) × Option String)
    (ft : String × String) : List (List Char) × Option String :=
  if acc.1.length < (longest_common_word_substring normTitle ft.2).length then
    (longest_common_word_substring normTitle ft.2, some ft.1)
  else acc

/-- `find_additional_link(title_text, files_texts, link_name)`; the dict is
an association list in insertion order. -/
def find_additional_link (titleText : String) (filesTexts : List (String × String))
    (linkName : String) : Option (String × String) :=
  let normTitle := normalize_text titleText true
  match filesTexts.find? (fun ft => pyIn normTitle ft.2) with
  | some ft => some (linkName, ft.1)
  | none =>
    let best := filesTexts.foldl (bestLcsStep normTitle) ([], none)
    match best.2 with
    | some bm => if 4 ≤ best.1.length then some (linkName, bm) else none
    | none => none

/-! ### HTML listing items and the HTML record extractor -/

/-- An `<a href=...>` node: its visible (stripped) text and its target. -/
structure Anchor where
  text : String
  href : String
deriving DecidableEq

/-- The parts of a biblio `<li>` element that `scrape_biblio.py` reads:
the text of the `span.authors` node (if present), the anchor inside the
`span.pubtitle` node (if present), all anchors with an `href` in document
order, and the venue text (whose italic-after-In: traversal is collapsed
into a stored field, since no claim concerns it). -/
structure LiItem where
  authorsSpan : Option String
  pubtitleAnchor : Option Anchor
  anchors : List Anchor
  venueText : String
deriving DecidableEq

/-- The unified record produced by both extractors. -/
structure PublicationEntry where
  authors : String
  title : String
  venue : String
  links : List (String × String)
deriving DecidableEq

/-- `extract_main_title_link(li)`: the pubtitle anchor, else the first
anchor of the item. -/
def extract_main_title_link (li : LiItem) : Option Anchor :=
  match li.pubtitleAnchor with
  | some a => some a
  | none => li.anchors.head?

/-- `map_link(url)`: host-to-label mapping, in dict insertion order. -/
def map_link (url : String) : Option String :=
  if pyIn ("arxiv.org") url then some ("ArXiv")
  else if pyIn ("aclanthology.org") url then some ("Anthology")
  else none

/-- Tail pattern `\((\d{4})\):\s*$` of the author/year regex: matches a
suffix consisting of a parenthesized 4-digit year, a colon and trailing
whitespace, returning the digits. -/
def matchYearTail : List Char → Option (List Char)
  | '(' :: d1 :: d2 :: d3 :: d4 :: ')' :: ':' :: rest =>
    if d1.isDigit && d2.isDigit && d3.isDigit && d4.isDigit && rest.all isPyWs then
      some [d1, d2, d3, d4]
    else none
  | _ => none

/-- Scanner for `re.search(r"^(\.\*)\((\d{4})\):\s*$", s)` (written here with
the dot escaped; in the source the group is `(.*)`): find the split point
where the year tail begins.  The greedy `.*` cannot cross a newline, and at
most one split point can satisfy the tail pattern, so the first one found is
the match. -/
def findAuthorsYearAux : List Char → List Char → Option (List Char × Nat)
  | pre, suf =>
    match matchYearTail suf with
    | some ds =>
      if pre.contains '\n' then none else some (pre.reverse, natOfDigits ds)
    | none =>
      match suf with
      | [] => none
      | c :: cs => findAuthorsYearAux (c :: pre) cs

/-- The author/year regex match: `some (group1, year)` on success. -/
def pyFindAuthorsYear (l : List Char) : Option (List Char × Nat) :=
  findAuthorsYearAux [] l

/-- The primary-link scan of `reformat_biblio_entry`: the first anchor whose
lower-cased label contains one of the keys
`["url", "pdf", "local PDF", "local ZIP"]`. -/
def primaryAnchor (anchors : List Anchor) : Option Anchor :=
  anchors.find? (fun a =>
    let label := pyLowerStr a.text
    pyInL ("url").toList label.toList || pyInL ("pdf").toList label.toList ||
      pyInL ("local PDF").toList label.toList || pyInL ("local ZIP").toList label.toList)

/-- `reformat_biblio_entry(li, poster_texts, slides_texts)`.  The function
raises `ValueError` when the item has no authors span; this is modelled by
`none`.  Note `authors_raw[: m.start()]`: the regex is anchored at `^`, so a
successful match always has `m.start() = 0` and the slice is empty. -/
def reformat_biblio_entry (li : LiItem) (posterTexts slidesTexts : Option (List (String × String))) :
    Option PublicationEntry :=
  match li.authorsSpan with
  | none => none
  | some authorsRaw =>
    let m := pyFindAuthorsYear authorsRaw.toList
    let authorsTxt := clean_whitespace (if m.isSome then ⟨authorsRaw.toList.take 0⟩ else authorsRaw)
    let titleText := match extract_main_title_link li with
      | some a => clean_whitespace a.text
      | none => ""
    let links0 : List (String × String) :=
      match primaryAnchor li.anchors with
      | some a =>
        let lab := match map_link a.href with
          | some s => s
          | none => if a.text ≠ "" then a.text else "link"
        [(lab, a.href)]
      | none => []
    let links1 := match posterTexts with
      | some pt =>
        if pt.isEmpty then links0
        else match find_additional_link titleText pt ("Poster") with
          | some pl => links0 ++ [pl]
          | none => links0
      | none => links0
    let links2 := match slidesTexts with
      | some st =>
        if st.isEmpty then links1
        else match find_additional_link titleText st ("Slides") with
          | some sl => links1 ++ [sl]
          | none => links1
      | none => links1
    some { authors := authorsTxt, title := titleText, venue := li.venueText, links := links2 }

/-- `find_matching_biblio_entries(html, author_query, year)`: the parsed
`<li>` items are the input; keep those whose authors span matches the year
pattern with the requested year and whose cleaned author text contains the
accent-stripped, lower-cased query. -/
def find_matching_biblio_entries (items : List LiItem) (authorQuery : String) (year : Nat) :
    List LiItem :=
  let authorNorm := strip_accents (pyLowerStr authorQuery)
  items.filter (fun li =>
    match li.authorsSpan with
    | none => false
    | some raw =>
      match pyFindAuthorsYear raw.toList with
      | none => false
      | some (g1, y) =>
        y == year && pyIn authorNorm (strip_accents (pyLowerStr (clean_whitespace ⟨g1⟩))))

/-! ### `find_repo_link`

The regex
`(?:our\s+(?:code|data|implementation|dataset))(?:\s+\w+){0,10}?\s+(https?://[^\s\)]+)`
with `re.IGNORECASE`, embedded as a backtracking matcher specialised to this
pattern: alternatives are tried in order, the counted group is lazy (URL
attempted before consuming another word), and the character-class repeats
are greedy (their character sets are disjoint from what follows, so maximal
munch is exact). -/

/-- Case-insensitive literal match (the literal is given lower-case);
returns the rest of the input. -/
def matchLitCI : List Char → List Char → Option (List Char)
  | [], s => some s
  | _ :: _, [] => none
  | c :: cs, d :: ds => if pyLower d = c then matchLitCI cs ds else none

/-- Length of the leading whitespace run. -/
def wsRunLen (l : List Char) : Nat :=
  (l.takeWhile isPyWs).length

/-- Match `https?://[^\s\)]+` at the start, returning the captured URL text
(original case) and the rest. -/
def matchUrlAt (s : List Char) : Option (List Char × List Char) :=
  let schemeLen : Option Nat :=
    if (matchLitCI ("https://").toList s).isSome then some 8
    else if (matchLitCI ("http://").toList s).isSome then some 7
    else none
  match schemeLen with
  | none => none
  | some k =>
    let rest := s.drop k
    let body := rest.takeWhile (fun c => !isPyWs c && c ≠ ')')
    if body.isEmpty then none else some (s.take k ++ body, rest.drop body.length)

/-- Match `(?:\s+\w+){0,budget}?\s+(https?://[^\s\)]+)`: lazily consume
up to `budget` intervening words, preferring to match the URL first. -/
def matchTailGap : Nat → List Char → Option (List Char × List Char)
  | budget, s =>
    let n := wsRunLen s
    if n = 0 then none
    else
      let r := s.drop n
      match matchUrlAt r with
      | some res => some res
      | none =>
        match budget with
        | 0 => none
        | Nat.succ b =>
          let w := r.takeWhile isWordChar
          if w.isEmpty then none else matchTailGap b (r.drop w.length)

/-- Try one keyword alternative followed by the tail of the pattern. -/
def tryKeyword (kw : List Char) (s2 : List Char) : Option (List Char × List Char) :=
  match matchLitCI kw s2 with
  | none => none
  | some s3 => matchTailGap 10 s3

/-- Attempt the whole pattern at the start of `s`; on success return
`(group 0, group 1)` (matched span, captured URL). -/
def tryRepoAt (s : List Char) : Option (List Char × List Char) :=
  match matchLitCI ("our").toList s with
  | none => none
  | some s1 =>
    let n := wsRunLen s1
    if n = 0 then none
    else
      let s2 := s1.drop n
      let res := match tryKeyword ("code").toList s2 with
        | some r => some r
        | none => match tryKeyword ("data").toList s2 with
          | some r => some r
          | none => match tryKeyword ("implementation").toList s2 with
            | some r => some r
            | none => tryKeyword ("dataset").toList s2
      match res with
      | some (url, rest) => some (s.take (s.length - rest.length), url)
      | none => none

/-- `re.search`: try the pattern at each start position, left to right. -/
def repoSearch : List Char → Option (List Char × List Char)
  | [] => none
  | c :: cs =>
    match tryRepoAt (c :: cs) with
    | some r => some r
    | none => repoSearch cs

/-- `url.rstrip('.,;:')`. -/
def rstripPunct (l : List Char) : List Char :=
  (l.reverse.dropWhile (fun c => c == '.' || c == ',' || c == ';' || c == ':')).reverse

/-- `find_repo_link(paper_text)`. -/
def find_repo_link (paperText : String) : Option (String × String) :=
  match repoSearch paperText.toList with
  | none => none
  | some (g0, url) =>
    let url2 := rstripPunct url
    let g0l := g0.map pyLower
    let label := if pyInL ("code").toList g0l || pyInL ("implementation").toList g0l
      then ("Code" : String) else ("Data" : String)
    some (label, ⟨url2⟩)

/-! ### Structured-bibliography source (`--bibfile`) -/

/-- The fields of a parsed BibTeX entry that the year/author filter reads. -/
structure BibEntry where
  author : Option String
  year : Option String
deriving DecidableEq

/-- Python `int(str)`: surrounding whitespace allowed, optional sign, at
least one digit (digit-grouping underscores are not modelled); `none` models
the `ValueError`. -/
def pyIntOfString (s : String) : Option Int :=
  let t := trimWs s.toList
  let core : Bool × List Char := match t with
    | '-' :: r => (true, r)
    | '+' :: r => (false, r)
    | r => (false, r)
  if core.2.isEmpty || !(core.2.all Char.isDigit) then none
  else
    let n : Nat := natOfDigits core.2
    some (if core.1 then -(n : Int) else (n : Int))

/-- The filtering loop of `find_matching_bibfile_entries`.  `int(entry_year)`
is evaluated outside any `try`, so a non-numeric year field raises an
uncaught `ValueError`, modelled as `Except.error`. -/
def find_matching_bibfile_core (authorNorm : String) (year : Int) :
    List BibEntry → Except String (List BibEntry)
  | [] => Except.ok []
  | e :: es =>
    let yv : Option Int := match e.year with
      | none => some 0
      | some ys => pyIntOfString ys
    match yv with
    | none => Except.error ("ValueError")
    | some y =>
      if y = year then
        if pyIn authorNorm (strip_accents (pyLowerStr (e.author.getD ""))) then
          match find_matching_bibfile_core authorNorm year es with
          | Except.ok tail => Except.ok (e :: tail)
          | Except.error msg => Except.error msg
        else find_matching_bibfile_core authorNorm year es
      else find_matching_bibfile_core authorNorm year es

/-- `find_matching_bibfile_entries(bib_filename, author_query, year)`.  The
`try`/`except` around loading the file converts a failed parse (`none`) into
an empty result; the loop itself can still raise. -/
def find_matching_bibfile_entries (parsed : Option (List BibEntry)) (authorQuery : String)
    (year : Int) : Except String (List BibEntry) :=
  match parsed with
  | none => Except.ok []
  | some es => find_matching_bibfile_core (strip_accents (pyLowerStr authorQuery)) year es

/-! ### The link-attachment loop of `main`

`extract_pdf_text` is network/PDF I/O; it is passed in as a function
(`pdfText`). -/

/-- Body of the `for entry in bib_items` loop in `main`: append the
repository link (when requested and a primary link exists), then a poster
link, then a slides link. -/
def attach_extra_links (findRepoLinks : Bool) (pdfText : String → String)
    (posterTexts slidesTexts : Option (List (String × String)))
    (entry : PublicationEntry) : PublicationEntry :=
  let e1 := if findRepoLinks then
      match entry.links with
      | [] => entry
      | l0 :: _ =>
        match find_repo_link (pdfText l0.2) with
        | some rl => { entry with links := entry.links ++ [rl] }
        | none => entry
    else entry
  let e2 := match posterTexts with
    | some pt =>
      if pt.isEmpty then e1
      else match find_additional_link e1.title pt ("Poster") with
        | some pl => { e1 with links := e1.links ++ [pl] }
        | none => e1
    | none => e1
  match slidesTexts with
  | some st =>
    if st.isEmpty then e2
    else match find_additional_link e2.title st ("Slides") with
      | some sl => { e2 with links := e2.links ++ [sl] }
      | none => e2
  | none => e2

/-- The biblio half of `main`: filter the items, extract each survivor, then
run the link-attachment loop.  (Items that pass the filter always carry an
authors span, so the `ValueError` branch of the extractor cannot fire here
and `filterMap` traverses every survivor.) -/
def run_biblio_pipeline (items : List LiItem) (authorQuery : String) (year : Nat)
    (posterTexts slidesTexts : Option (List (String × String)))
    (findRepoLinks : Bool) (pdfText : String → String) : List PublicationEntry :=
  let matching := find_matching_biblio_entries items authorQuery year
  let bibItems := matching.filterMap (fun li => reformat_biblio_entry li posterTexts slidesTexts)
  bibItems.map (attach_extra_links findRepoLinks pdfText posterTexts slidesTexts)

/-! ## Supporting lemmas -/

/-- The empty string is a substring of every string (Python `"" in s`). -/
theorem pyInL_nil (l : List Char) : pyInL [] l = true := by
  cases l <;> simp [pyInL, List.tails, List.isPrefixOf]

/-! ## Claims -/

/-- C1: the claim says `reformat_biblio_entry` strips the parenthesized year
and trailing colon from a well-formed author line, yielding the authors text
and the year.  The regex is anchored at `^`, so `m.start() = 0` and the
slice `authors_raw[: m.start()]` is always empty: on the claim's own example
the extractor returns an empty authors string, although the regex does
capture `"Jane Doe, John Roe "` and the year 2023 (as the filter function
shows). -/
theorem claim1_reformat_yields_empty_authors :
    pyFindAuthorsYear ("Jane Doe, John Roe (2023):").toList =
      some (("Jane Doe, John Roe ").toList, 2023) ∧
    clean_whitespace ⟨("Jane Doe, John Roe ").toList⟩ = ("Jane Doe, John Roe") ∧
    (reformat_biblio_entry ⟨some ("Jane Doe, John Roe (2023):"), none, [], ("")⟩ none none).map
      (fun e => e.authors) = some ("") := by
  exact ⟨by decide, by decide, by rfl⟩

/-- C2: the claim says every record built from an item that passed the
author/year filter has non-empty authors and title.  This item passes the
filter for author "doe", year 2023, yet its record has `authors = ""`
(the `m.start() = 0` slice bug of `reformat_biblio_entry`). -/
theorem claim2_filtered_item_gets_empty_authors :
    find_matching_biblio_entries
        [⟨some ("Jane Doe (2023):"), none, [⟨("url"), ("https://x")⟩], ("")⟩] ("doe") 2023 =
      [⟨some ("Jane Doe (2023):"), none, [⟨("url"), ("https://x")⟩], ("")⟩] ∧
    (reformat_biblio_entry ⟨some ("Jane Doe (2023):"), none, [⟨("url"), ("https://x")⟩], ("")⟩
        none none).map (fun e => e.authors) = some ("") := by
  exact ⟨by rfl, by rfl⟩

/-- C3: the claim says the final link sequence is primary → repository →
poster → slides, each at most once.  Because `reformat_biblio_entry` already
appends poster/slides links and the loop in `main` appends them again, a
matching poster produces the link list [primary, Poster, Poster]: the poster
link appears twice (and would precede any repository link). -/
theorem claim3_poster_link_appended_twice :
    run_biblio_pipeline
        [⟨some ("Jane Doe (2023):"), some ⟨("A Great Paper Title Here"), ("https://x")⟩,
          [⟨("url"), ("https://x")⟩], ("")⟩]
        ("doe") 2023
        (some [(("p.pdf"), ("intro a great paper title here and more"))]) none
        false (fun _ => ("")) =
      [{ authors := (""), title := ("A Great Paper Title Here"), venue := (""),
         links := [(("url"), ("https://x")), (("Poster"), ("p.pdf")), (("Poster"), ("p.pdf"))] }] := by
  rfl

/-- C4 counterexample: the claim says the punctuation-spacing step keeps the
colon.  Normalizing "Paper : A Study" yields "paper a study": the colon is
removed (the replacement in `re.sub(r"\s*([:,;])\s+", r" ", text)` is a
bare space that does not reinsert the captured character). -/
theorem claim4_counterexample_colon_removed :
    normalize_text ("Paper : A Study") true = ("paper a study") ∧
    ':' ∉ (normalize_text ("Paper : A Study") true).toList := by
  exact ⟨by rfl, by decide⟩

/-- C4 (amended): the punctuation-spacing step removes a colon, comma or
semicolon together with its surrounding whitespace whenever the character is
followed by whitespace; a colon not followed by whitespace is retained; in
particular "Paper : A Study" and "Paper: A Study" normalize identically, to
"paper a study". -/
theorem claim4_punctuation_step_behaviour :
    normalize_text ("Paper : A Study") true = ("paper a study") ∧
    normalize_text ("Paper: A Study") true = ("paper a study") ∧
    normalize_text ("Paper:A Study") true = ("paper:a study") := by
  exact ⟨by rfl, by rfl, by rfl⟩

/-- C5: the claim says a structured-bibliography record with a non-numeric
year makes the source contribute zero records while processing continues.
In fact `int(entry_year)` is evaluated outside the `try` block, so such a
record raises an uncaught `ValueError` (first conjunct); only a failed parse
of the whole file is caught and converted to zero records (second
conjunct). -/
theorem claim5_nonnumeric_year_raises :
    find_matching_bibfile_entries (some [⟨some ("Doe, Jane"), some ("n.d.")⟩]) ("doe") 2023 =
      Except.error ("ValueError") ∧
    find_matching_bibfile_entries none ("doe") 2023 = Except.ok [] := by
  exact ⟨by rfl, by rfl⟩

/-- C6 counterexample: the claim says the label is "Code" if and only if the
*triggering phrase* mentions "code" or "implementation".  Here the phrase is
"our data", yet the label is "Code", because the code tests the whole
matched span (which includes the URL `https://code.org/x`). -/
theorem claim6_counterexample_label_from_span :
    find_repo_link ("our data at https://code.org/x") = some (("Code"), ("https://code.org/x")) ∧
    find_repo_link ("our data at https://code.org/x") ≠ some (("Data"), ("https://code.org/x")) := by
  exact ⟨by rfl, by decide⟩

/-- C6 (amended): `find_repo_link` returns the first phrase-anchored URL
with trailing punctuation stripped, and the label is "Code" exactly when the
*whole matched span* (trigger phrase through URL, lower-cased) contains
"code" or "implementation", else "Data"; the two spec examples behave as
claimed, and every returned label is one of "Code"/"Data". -/
theorem claim6_repo_link_examples_and_labels :
    find_repo_link ("...we release our code at https://github.com/x/y.") =
      some (("Code"), ("https://github.com/x/y")) ∧
    find_repo_link ("our data is at https://example.org/d") =
      some (("Data"), ("https://example.org/d")) ∧
    ∀ (s : String) (p : String × String), find_repo_link s = some p →
      p.1 = ("Code") ∨ p.1 = ("Data") := by
  refine ⟨by rfl, by rfl, ?_⟩
  intro s p h
  unfold find_repo_link at h
  rcases hrs : repoSearch s.toList with _ | ⟨g0, url⟩
  · rw [hrs] at h; exact absurd h (by simp)
  · rw [hrs] at h
    simp only [] at h
    by_cases hc :
        (pyInL ("code").toList (g0.map pyLower) || pyInL ("implementation").toList (g0.map pyLower)) = true
    · rw [if_pos hc] at h
      cases h
      exact Or.inl rfl
    · rw [if_neg hc] at h
      cases h
      exact Or.inr rfl

/-- C6 witness: the label rule of the amended claim instantiated at the
first spec example. -/
theorem claim6_repo_link_witness :
    (("Code") : String) = ("Code") ∨ (("Code") : String) = ("Data") :=
  claim6_repo_link_examples_and_labels.2.2
    ("...we release our code at https://github.com/x/y.")
    ((("Code"), ("https://github.com/x/y"))) (by rfl)

/-- C8: the claim says an anchor labeled exactly "local ZIP" is selected as
the primary link.  The code lower-cases the label before testing the keys,
so the case-sensitive keys "local PDF"/"local ZIP" can never match: the
"local ZIP" anchor yields no primary link at all (first conjunct), while
"local PDF" is selected only via the lower-case key "pdf" (second
conjunct). -/
theorem claim8_local_zip_never_selected :
    (reformat_biblio_entry ⟨some ("A B (2020):"), none, [⟨("local ZIP"), ("http://u")⟩], ("")⟩
        none none).map (fun e => e.links) = some [] ∧
    (reformat_biblio_entry ⟨some ("A B (2020):"), none, [⟨("local PDF"), ("http://u")⟩], ("")⟩
        none none).map (fun e => e.links) = some [(("local PDF"), ("http://u"))] := by
  exact ⟨by rfl, by rfl⟩

/-- C10: a title whose normalized form is empty matches the first corpus
entry through the exact-containment path, because the empty string is a
substring of every document text. -/
theorem claim10_empty_title_matches_first (title nm f t : String)
    (rest : List (String × String)) (h : normalize_text title true = ("")) :
    find_additional_link title ((f, t) :: rest) nm = some (nm, f) := by
  simp only [find_additional_link, h]
  rw [List.find?_cons_of_pos _ (by simp [pyIn, pyInL_nil])]

/-- C10 witness: a bullet-only title normalizes to the empty string and
matches the first (and only) corpus entry. -/
theorem claim10_witness :
    find_additional_link (" • ") [(("p.pdf"), ("whatever"))] ("Poster") =
      some (("Poster"), ("p.pdf")) :=
  claim10_empty_title_matches_first (" • ") ("Poster") ("p.pdf") ("whatever") [] (by rfl)

/-! ## Lemmas on the longest-matching-block search (for C7) -/

/-- `commonPrefixLen` on an empty left sequence. -/
theorem cpl_nil_left (b : List (List Char)) : commonPrefixLen [] b = 0 := rfl

/-- `commonPrefixLen` on an empty right sequence. -/
theorem cpl_nil_right (a : List (List Char)) : commonPrefixLen a [] = 0 := by
  cases a <;> rfl

/-- A common run is no longer than the left sequence. -/
theorem cpl_le_left : ∀ (a b : List (List Char)), commonPrefixLen a b ≤ a.length
  | [], b => by rw [cpl_nil_left]; exact Nat.zero_le _
  | _ :: _, [] => by rw [cpl_nil_right]; exact Nat.zero_le _
  | a :: as, b :: bs => by
    by_cases h : a = b
    · simpa [commonPrefixLen, h] using Nat.succ_le_succ (cpl_le_left as bs)
    · simp [commonPrefixLen, h]

/-- C9 counterexample: re-normalizing changes the result on "x ; : y"
(the first pass leaves a double space). -/
theorem claim9_counterexample :
    normalize_text (normalize_text ("x ; : y") true) true ≠ normalize_text ("x ; : y") true ∧
    normalize_text ("x ; : y") true = ("x  y") ∧
    normalize_text (normalize_text ("x ; : y") true) true = ("x y") := by
  exact ⟨by decide, by rfl, by rfl⟩

/-- Every whitespace character of the list is a plain space. -/
def allWsSp (l : List Char) : Bool :=
  l.all (fun c => !isPyWs c || c == ' ')

/-- No two adjacent whitespace characters. -/
def noDblSp : List Char → Bool
  | [] => true
  | [_] => true
  | a :: b :: r => !(isPyWs a && isPyWs b) && noDblSp (b :: r)

/-- No punctuation character directly followed by whitespace (hence no
match for the punctuation-spacing substitution). -/
def noPW : List Char → Bool
  | [] => true
  | [_] => true
  | a :: b :: r => !(isPunct3 a && isPyWs b) && noPW (b :: r)

/-- The first character, if any, is not whitespace. -/
def headNotWs : List Char → Bool
  | [] => true
  | c :: _ => !isPyWs c

/-- The last character, if any, is not whitespace. -/
def lastNotWs : List Char → Bool
  | [] => true
  | [c] => !isPyWs c
  | _ :: c :: r => lastNotWs (c :: r)

/-- A character that every pass of `normalize_text` leaves alone. -/
def canonChar (c : Char) : Bool :=
  (nfkdChar c == [c]) && !isCombining c && (quoteMap c == c) && (bulletMap c == c)

/-- All characters of the list are canonical. -/
def canonAll (l : List Char) : Bool :=
  l.all canonChar

/-- Unfolding of `canonChar`. -/
theorem canonChar_spec (c : Char) (h : canonChar c = true) :
    nfkdChar c = [c] ∧ isCombining c = false ∧ quoteMap c = c ∧ bulletMap c = c := by
  simp only [canonChar, Bool.and_eq_true, beq_iff_eq, Bool.not_eq_true'] at h
  exact ⟨h.1.1.1, h.1.1.2, h.1.2, h.2⟩

/-- Non-combining characters of a table decomposition are NFKD-stable:
every output character that is not a combining mark is itself outside the
table. -/
theorem nfkdChar_out (c d : Char) (hdin : d ∈ nfkdChar c) (hcomb : isCombining d = false) :
    nfkdChar d = [d] := by
  unfold nfkdChar at hdin
  cases hfind : nfkdTable.find? (fun p => p.1 == c) with
  | none =>
    rw [hfind] at hdin
    rw [List.mem_singleton.mp hdin]
    unfold nfkdChar
    rw [hfind]
  | some p =>
    rw [hfind] at hdin
    have hp : p ∈ nfkdTable := List.mem_of_find?_eq_some hfind
    have key : nfkdTable.all
        (fun q => q.2.all (fun e => isCombining e || (nfkdChar e == [e]))) = true := by decide
    have h3 := List.all_eq_true.mp (List.all_eq_true.mp key p hp) d hdin
    have h3b : isCombining d = true ∨ nfkdChar d = [d] := by simpa using h3
    rcases h3b with h4 | h4
    · rw [hcomb] at h4
      cases h4
    · exact h4

/-- Characters surviving `nfkdStrip` are NFKD-stable and non-combining. -/
theorem mem_nfkdStrip (l : List Char) (d : Char) (hd : d ∈ nfkdStrip l) :
    nfkdChar d = [d] ∧ isCombining d = false := by
  unfold nfkdStrip at hd
  obtain ⟨hmem, hcomb⟩ := List.mem_filter.mp hd
  have hcomb2 : isCombining d = false := by
    simpa using hcomb
  obtain ⟨ld, hld, hdin⟩ := List.mem_flatten.mp hmem
  obtain ⟨c, _, rfl⟩ := List.mem_map.mp hld
  exact ⟨nfkdChar_out c d hdin hcomb2, hcomb2⟩

/-- `quoteMap` maps NFKD-stable non-combining characters to canonical-quote
characters that are themselves stable under another `quoteMap`. -/
theorem quoteMap_out (c : Char) (h1 : nfkdChar c = [c]) (h2 : isCombining c = false) :
    nfkdChar (quoteMap c) = [quoteMap c] ∧ isCombining (quoteMap c) = false ∧
      quoteMap (quoteMap c) = quoteMap c := by
  by_cases ha : c = '\u2018' ∨ c = '\u2019' ∨ c = '\u00B4' ∨ c = '\u0060'
  · have hq : quoteMap c = '\u0027' := by unfold quoteMap; rw [if_pos ha]
    rw [hq]
    exact ⟨by decide, by decide, by decide⟩
  · by_cases hb : c = '\u201C' ∨ c = '\u201D' ∨ c = '\u201E' ∨ c = '\u201F' ∨ c = '\u2033'
    · have hq : quoteMap c = '\u0022' := by unfold quoteMap; rw [if_neg ha, if_pos hb]
      rw [hq]
      exact ⟨by decide, by decide, by decide⟩
    · have hq : quoteMap c = c := by unfold quoteMap; rw [if_neg ha, if_neg hb]
      rw [hq]
      exact ⟨h1, h2, hq⟩

/-- `bulletMap` output is canonical when its input survived the previous
two steps. -/
theorem bulletMap_out (c : Char) (h1 : nfkdChar c = [c]) (h2 : isCombining c = false)
    (h3 : quoteMap c = c) : canonChar (bulletMap c) = true := by
  by_cases hb : isBullet c = true
  · have hsp : bulletMap c = ' ' := by unfold bulletMap; rw [if_pos hb]
    rw [hsp]
    decide
  · have hid : bulletMap c = c := by unfold bulletMap; rw [if_neg hb]
    rw [hid]
    simp [canonChar, h1, h2, h3, hid]

/-- Every character after the first three steps of `normalize_text` is
canonical. -/
theorem canonAll_t3 (l : List Char) :
    canonAll (((nfkdStrip l).map quoteMap).map bulletMap) = true := by
  rw [canonAll, List.all_eq_true]
  intro d hd
  obtain ⟨d2, hd2, rfl⟩ := List.mem_map.mp hd
  obtain ⟨d1, hd1, rfl⟩ := List.mem_map.mp hd2
  obtain ⟨p1, p2⟩ := mem_nfkdStrip l d1 hd1
  obtain ⟨q1, q2, q3⟩ := quoteMap_out d1 p1 p2
  exact bulletMap_out (quoteMap d1) q1 q2 q3

/-- Characters are determined by their code points. -/
theorem char_eq_of_toNat (c d : Char) (h : c.toNat = d.toNat) : c = d :=
  Char.ext (UInt32.ext h)

/-- Code point of a lower-cased ASCII capital. -/
theorem pyLower_toNat (c : Char) (h : 65 ≤ c.toNat ∧ c.toNat ≤ 90) :
    (pyLower c).toNat = c.toNat + 32 := by
  unfold pyLower
  rw [if_pos h]
  obtain ⟨h1, h2⟩ := h
  interval_cases hc : c.toNat <;> decide

/-- `pyLower` only changes ASCII capitals. -/
theorem pyLower_id_of_not_upper (c : Char) (h : ¬(65 ≤ c.toNat ∧ c.toNat ≤ 90)) :
    pyLower c = c := by
  unfold pyLower
  rw [if_neg h]

/-- No whitespace character has a code point of 65 or above. -/
theorem isPyWs_false_of_toNat (c : Char) (h : 65 ≤ c.toNat) : isPyWs c = false := by
  cases hw : isPyWs c
  · rfl
  · exfalso
    simp only [isPyWs, Bool.or_eq_true, beq_iff_eq] at hw
    rcases hw with ((((rfl | rfl) | rfl) | rfl) | rfl) | rfl <;> exact absurd h (by decide)

/-- No `: , ;` has a code point of 65 or above. -/
theorem isPunct3_false_of_toNat (c : Char) (h : 65 ≤ c.toNat) : isPunct3 c = false := by
  cases hw : isPunct3 c
  · rfl
  · exfalso
    simp only [isPunct3, Bool.or_eq_true, beq_iff_eq] at hw
    rcases hw with (rfl | rfl) | rfl <;> exact absurd h (by decide)

/-- Lower-casing preserves whitespace-ness. -/
theorem pyLower_ws (c : Char) : isPyWs (pyLower c) = isPyWs c := by
  by_cases h : 65 ≤ c.toNat ∧ c.toNat ≤ 90
  · have ht := pyLower_toNat c h
    rw [isPyWs_false_of_toNat c h.1, isPyWs_false_of_toNat (pyLower c) (by omega)]
  · rw [pyLower_id_of_not_upper c h]

/-- Lower-casing preserves punctuation-ness. -/
theorem pyLower_punct (c : Char) : isPunct3 (pyLower c) = isPunct3 c := by
  by_cases h : 65 ≤ c.toNat ∧ c.toNat ≤ 90
  · have ht := pyLower_toNat c h
    rw [isPunct3_false_of_toNat c h.1, isPunct3_false_of_toNat (pyLower c) (by omega)]
  · rw [pyLower_id_of_not_upper c h]

/-- Lower-casing preserves canonicity. -/
theorem pyLower_canon (c : Char) (h : canonChar c = true) : canonChar (pyLower c) = true := by
  by_cases hu : 65 ≤ c.toNat ∧ c.toNat ≤ 90
  · unfold pyLower
    rw [if_pos hu]
    obtain ⟨h1, h2⟩ := hu
    interval_cases hc : c.toNat <;> decide
  · rw [pyLower_id_of_not_upper c hu]
    exact h

/-- Lower-casing is idempotent (ASCII model). -/
theorem pyLower_idem (c : Char) : pyLower (pyLower c) = pyLower c := by
  by_cases hu : 65 ≤ c.toNat ∧ c.toNat ≤ 90
  · have ht := pyLower_toNat c hu
    rw [pyLower_id_of_not_upper (pyLower c) (by omega)]
  · rw [pyLower_id_of_not_upper c hu]
    exact pyLower_id_of_not_upper c hu

/-! ### Transfer of the structural predicates along `pyLower` -/

/-- Lower-casing keeps every whitespace character a plain space. -/
theorem allWsSp_map_pyLower (l : List Char) (h : allWsSp l = true) :
    allWsSp (l.map pyLower) = true := by
  rw [allWsSp, List.all_eq_true]
  intro x hx
  obtain ⟨c, hc, rfl⟩ := List.mem_map.mp hx
  have hc2 := (List.all_eq_true.mp h) c hc
  by_cases hw : isPyWs c = true
  · have : c = ' ' := by
      simp only [hw, Bool.not_true, Bool.false_or, beq_iff_eq] at hc2
      exact hc2
    subst this
    decide
  · have hf : isPyWs c = false := by
      cases hb : isPyWs c
      · rfl
      · exact absurd hb hw
    simp [pyLower_ws, hf]

/-- Lower-casing preserves the no-double-whitespace predicate. -/
theorem noDblSp_map_pyLower : ∀ l : List Char, noDblSp l = true → noDblSp (l.map pyLower) = true
  | [], _ => rfl
  | [_], _ => rfl
  | a :: b :: r, h => by
    simp only [noDblSp, Bool.and_eq_true] at h
    simp only [List.map_cons, noDblSp, Bool.and_eq_true]
    refine ⟨?_, ?_⟩
    · rw [pyLower_ws, pyLower_ws]
      exact h.1
    · have := noDblSp_map_pyLower (b :: r) h.2
      simpa using this

/-- Lower-casing preserves the no-punctuation-before-whitespace predicate. -/
theorem noPW_map_pyLower : ∀ l : List Char, noPW l = true → noPW (l.map pyLower) = true
  | [], _ => rfl
  | [_], _ => rfl
  | a :: b :: r, h => by
    simp only [noPW, Bool.and_eq_true] at h
    simp only [List.map_cons, noPW, Bool.and_eq_true]
    refine ⟨?_, ?_⟩
    · rw [pyLower_punct, pyLower_ws]
      exact h.1
    · have := noPW_map_pyLower (b :: r) h.2
      simpa using this

/-- Lower-casing preserves a non-whitespace head. -/
theorem headNotWs_map_pyLower (l : List Char) (h : headNotWs l = true) :
    headNotWs (l.map pyLower) = true := by
  cases l with
  | nil => rfl
  | cons c cs =>
    simp only [List.map_cons, headNotWs] at h ⊢
    rw [pyLower_ws]
    exact h

/-- Lower-casing preserves a non-whitespace last character. -/
theorem lastNotWs_map_pyLower : ∀ l : List Char, lastNotWs l = true →
    lastNotWs (l.map pyLower) = true
  | [], _ => rfl
  | [c], h => by
    simp only [List.map_cons, List.map_nil, lastNotWs] at h ⊢
    rw [pyLower_ws]
    exact h
  | a :: b :: r, h => by
    simp only [lastNotWs] at h
    simp only [List.map_cons, lastNotWs]
    have := lastNotWs_map_pyLower (b :: r) h
    simpa using this

/-- Lower-casing preserves canonicity of all characters. -/
theorem canonAll_map_pyLower (l : List Char) (h : canonAll l = true) :
    canonAll (l.map pyLower) = true := by
  rw [canonAll, List.all_eq_true]
  intro x hx
  obtain ⟨c, hc, rfl⟩ := List.mem_map.mp hx
  exact pyLower_canon c ((List.all_eq_true.mp h) c hc)

/-! ### The first three normalization steps fix canonical strings -/

/-- `nfkdStrip` fixes strings of canonical characters. -/
theorem nfkdStrip_of_canon : ∀ l, canonAll l = true → nfkdStrip l = l
  | [], _ => rfl
  | c :: cs, h => by
    have hc : canonChar c = true ∧ canonAll cs = true := by
      simpa [canonAll] using h
    obtain ⟨q1, q2, _, _⟩ := canonChar_spec c hc.1
    have ih := nfkdStrip_of_canon cs hc.2
    unfold nfkdStrip at ih ⊢
    rw [List.map_cons, List.flatten_cons, q1, List.filter_append, ih]
    have : List.filter (fun c => !isCombining c) [c] = [c] := by
      simp [q2]
    rw [this]
    rfl

/-- `quoteMap` fixes strings of canonical characters. -/
theorem map_quoteMap_of_canon : ∀ l, canonAll l = true → l.map quoteMap = l
  | [], _ => rfl
  | c :: cs, h => by
    have hc : canonChar c = true ∧ canonAll cs = true := by
      simpa [canonAll] using h
    rw [List.map_cons, (canonChar_spec c hc.1).2.2.1, map_quoteMap_of_canon cs hc.2]

/-- `bulletMap` fixes strings of canonical characters. -/
theorem map_bulletMap_of_canon : ∀ l, canonAll l = true → l.map bulletMap = l
  | [], _ => rfl
  | c :: cs, h => by
    have hc : canonChar c = true ∧ canonAll cs = true := by
      simpa [canonAll] using h
    rw [List.map_cons, (canonChar_spec c hc.1).2.2.2, map_bulletMap_of_canon cs hc.2]

/-! ### Structural lemmas about whitespace collapsing and trimming -/

/-- A boolean that is not true is false. -/
theorem bool_eq_false {b : Bool} (h : ¬b = true) : b = false := by
  cases b
  · rfl
  · exact absurd rfl h

/-- `noDblSp` passes to the tail. -/
theorem noDblSp_tail : ∀ (c : Char) (cs : List Char), noDblSp (c :: cs) = true →
    noDblSp cs = true
  | _, [], _ => rfl
  | _, _ :: _, h => by
    simp only [noDblSp, Bool.and_eq_true] at h
    exact h.2

/-- `noPW` passes to the tail. -/
theorem noPW_tail : ∀ (c : Char) (cs : List Char), noPW (c :: cs) = true → noPW cs = true
  | _, [], _ => rfl
  | _, _ :: _, h => by
    simp only [noPW, Bool.and_eq_true] at h
    exact h.2

/-- Build `noDblSp` from a tail plus a safe head. -/
theorem noDblSp_cons_build (a : Char) (l : List Char) (h : noDblSp l = true)
    (hab : isPyWs a = false ∨ headNotWs l = true) : noDblSp (a :: l) = true := by
  cases l with
  | nil => rfl
  | cons b bs =>
    simp only [noDblSp, Bool.and_eq_true]
    refine ⟨?_, h⟩
    rcases hab with ha | hb
    · simp [ha]
    · simp only [headNotWs, Bool.not_eq_true'] at hb
      simp [hb]

/-- Build `noPW` from a tail plus a safe head. -/
theorem noPW_cons_build (a : Char) (l : List Char) (h : noPW l = true)
    (hab : isPunct3 a = false ∨ headNotWs l = true) : noPW (a :: l) = true := by
  cases l with
  | nil => rfl
  | cons b bs =>
    simp only [noPW, Bool.and_eq_true]
    refine ⟨?_, h⟩
    rcases hab with ha | hb
    · simp [ha]
    · simp only [headNotWs, Bool.not_eq_true'] at hb
      simp [hb]

/-- A punctuation-free string trivially satisfies `noPW`. -/
theorem noPW_of_no_punct : ∀ l : List Char, (∀ c ∈ l, isPunct3 c = false) → noPW l = true
  | [], _ => rfl
  | [_], _ => rfl
  | a :: b :: r, h => by
    simp only [noPW, Bool.and_eq_true]
    refine ⟨by simp [h a (List.mem_cons_self a _)], ?_⟩
    exact noPW_of_no_punct (b :: r) (fun c hc => h c (List.mem_cons_of_mem a hc))

/-- Punctuation-freeness as a count. -/
theorem no_punct_of_countP (l : List Char) (h : l.countP isPunct3 = 0) :
    ∀ c ∈ l, isPunct3 c = false :=
  fun c hc => bool_eq_false (List.countP_eq_zero.mp h c hc)

/-- `collapseWs` keeps a non-whitespace head in place. -/
theorem collapseWs_head_nonws (d : Char) (cs : List Char) (h : isPyWs d = false) :
    ∃ t, collapseWs (d :: cs) = d :: t := by
  cases cs with
  | nil => exact ⟨[], by simp [collapseWs, h]⟩
  | cons e cs => exact ⟨collapseWs (e :: cs), by simp [collapseWs, h]⟩

/-- All whitespace in the output of `collapseWs` is a plain space. -/
theorem allWsSp_collapseWs : ∀ l, allWsSp (collapseWs l) = true
  | [] => rfl
  | [c] => by
    by_cases h : isPyWs c = true
    · simp [collapseWs, h, allWsSp]
    · simp [collapseWs, bool_eq_false h, allWsSp]
  | c :: d :: cs => by
    have hx := allWsSp_collapseWs (d :: cs)
    by_cases h : isPyWs c = true
    · by_cases h2 : isPyWs d = true
      · simpa [collapseWs, h, h2] using hx
      · simpa [collapseWs, h, bool_eq_false h2, allWsSp, List.all_cons] using hx
    · simpa [collapseWs, bool_eq_false h, allWsSp, List.all_cons, bool_eq_false h] using hx

/-- The output of `collapseWs` has no two adjacent whitespace characters. -/
theorem noDblSp_collapseWs : ∀ l, noDblSp (collapseWs l) = true
  | [] => rfl
  | [c] => by
    by_cases h : isPyWs c = true
    · simp [collapseWs, h, noDblSp]
    · simp [collapseWs, bool_eq_false h, noDblSp]
  | c :: d :: cs => by
    have hx := noDblSp_collapseWs (d :: cs)
    by_cases h : isPyWs c = true
    · by_cases h2 : isPyWs d = true
      · simpa [collapseWs, h, h2] using hx
      · obtain ⟨t, ht⟩ := collapseWs_head_nonws d cs (bool_eq_false h2)
        have hgoal : collapseWs (c :: d :: cs) = ' ' :: collapseWs (d :: cs) := by
          simp [collapseWs, h, bool_eq_false h2]
        rw [hgoal]
        refine noDblSp_cons_build ' ' _ hx (Or.inr ?_)
        rw [ht]
        simp [headNotWs, bool_eq_false h2]
    · have hgoal : collapseWs (c :: d :: cs) = c :: collapseWs (d :: cs) := by
        simp [collapseWs, bool_eq_false h]
      rw [hgoal]
      exact noDblSp_cons_build c _ hx (Or.inl (bool_eq_false h))

/-- `collapseWs` does not increase the punctuation count. -/
theorem countP_collapseWs_le : ∀ l, (collapseWs l).countP isPunct3 ≤ l.countP isPunct3
  | [] => Nat.le_refl _
  | [c] => by
    by_cases h : isPyWs c = true
    · rw [show collapseWs [c] = [' '] from by simp [collapseWs, h]]
      have hsp : List.countP isPunct3 [' '] = 0 := by decide
      rw [hsp]
      exact Nat.zero_le _
    · simp [collapseWs, bool_eq_false h]
  | c :: d :: cs => by
    have hx := countP_collapseWs_le (d :: cs)
    by_cases h : isPyWs c = true
    · by_cases h2 : isPyWs d = true
      · have hgoal : collapseWs (c :: d :: cs) = collapseWs (d :: cs) := by
          simp [collapseWs, h, h2]
        rw [hgoal, List.countP_cons]
        omega
      · have hgoal : collapseWs (c :: d :: cs) = ' ' :: collapseWs (d :: cs) := by
          simp [collapseWs, h, bool_eq_false h2]
        rw [hgoal, List.countP_cons, List.countP_cons]
        have hsp : (if isPunct3 ' ' = true then 1 else 0) = 0 := by decide
        rw [hsp]
        omega
    · have hgoal : collapseWs (c :: d :: cs) = c :: collapseWs (d :: cs) := by
        simp [collapseWs, bool_eq_false h]
      rw [hgoal, List.countP_cons, List.countP_cons]
      omega

/-- Characters of the collapsed string come from the input or are spaces. -/
theorem mem_collapseWs : ∀ l (d : Char), d ∈ collapseWs l → d ∈ l ∨ d = ' '
  | [], _, hd => by cases hd
  | [c], d, hd => by
    by_cases h : isPyWs c = true
    · rw [show collapseWs [c] = [' '] from by simp [collapseWs, h]] at hd
      exact Or.inr (List.mem_singleton.mp hd)
    · rw [show collapseWs [c] = [c] from by simp [collapseWs, bool_eq_false h]] at hd
      exact Or.inl hd
  | c :: e :: cs, d, hd => by
    by_cases h : isPyWs c = true
    · by_cases h2 : isPyWs e = true
      · rw [show collapseWs (c :: e :: cs) = collapseWs (e :: cs) from by
          simp [collapseWs, h, h2]] at hd
        rcases mem_collapseWs (e :: cs) d hd with hm | hs
        · exact Or.inl (List.mem_cons_of_mem c hm)
        · exact Or.inr hs
      · rw [show collapseWs (c :: e :: cs) = ' ' :: collapseWs (e :: cs) from by
          simp [collapseWs, h, bool_eq_false h2]] at hd
        rcases List.mem_cons.mp hd with rfl | hm
        · exact Or.inr rfl
        · rcases mem_collapseWs (e :: cs) d hm with hm2 | hs
          · exact Or.inl (List.mem_cons_of_mem c hm2)
          · exact Or.inr hs
    · rw [show collapseWs (c :: e :: cs) = c :: collapseWs (e :: cs) from by
        simp [collapseWs, bool_eq_false h]] at hd
      rcases List.mem_cons.mp hd with rfl | hm
      · exact Or.inl (List.mem_cons_self _ _)
      · rcases mem_collapseWs (e :: cs) d hm with hm2 | hs
        · exact Or.inl (List.mem_cons_of_mem c hm2)
        · exact Or.inr hs

/-- `dropTrailWs` yields a sublist. -/
theorem dropTrailWs_sublist : ∀ l, (dropTrailWs l).Sublist l
  | [] => List.Sublist.refl []
  | c :: cs => by
    by_cases he : (dropTrailWs cs).isEmpty = true
    · by_cases hw : isPyWs c = true
      · rw [show dropTrailWs (c :: cs) = [] from by simp [dropTrailWs, he, hw]]
        exact List.nil_sublist _
      · rw [show dropTrailWs (c :: cs) = [c] from by simp [dropTrailWs, he, bool_eq_false hw]]
        exact (List.nil_sublist cs).cons₂ c
    · rw [show dropTrailWs (c :: cs) = c :: dropTrailWs cs from by simp [dropTrailWs, he]]
      exact (dropTrailWs_sublist cs).cons₂ c

/-- The head survives `dropTrailWs` (or everything is dropped). -/
theorem dropTrailWs_head (b : Char) (bs : List Char) :
    dropTrailWs (b :: bs) = [] ∨ ∃ t, dropTrailWs (b :: bs) = b :: t := by
  by_cases he : (dropTrailWs bs).isEmpty = true
  · by_cases hw : isPyWs b = true
    · exact Or.inl (by simp [dropTrailWs, he, hw])
    · exact Or.inr ⟨[], by simp [dropTrailWs, he, bool_eq_false hw]⟩
  · exact Or.inr ⟨dropTrailWs bs, by simp [dropTrailWs, he]⟩

/-- After `dropTrailWs` the last character is not whitespace. -/
theorem lastNotWs_dropTrailWs : ∀ l, lastNotWs (dropTrailWs l) = true
  | [] => rfl
  | c :: cs => by
    by_cases he : (dropTrailWs cs).isEmpty = true
    · by_cases hw : isPyWs c = true
      · rw [show dropTrailWs (c :: cs) = [] from by simp [dropTrailWs, he, hw]]
        rfl
      · rw [show dropTrailWs (c :: cs) = [c] from by simp [dropTrailWs, he, bool_eq_false hw]]
        simp [lastNotWs, bool_eq_false hw]
    · have ih := lastNotWs_dropTrailWs cs
      rw [show dropTrailWs (c :: cs) = c :: dropTrailWs cs from by simp [dropTrailWs, he]]
      cases hr : dropTrailWs cs with
      | nil =>
        rw [hr] at he
        exact absurd rfl he
      | cons x xs =>
        rw [hr] at ih
        exact ih

/-- `dropTrailWs` fixes strings whose last character is not whitespace. -/
theorem dropTrailWs_id : ∀ l, lastNotWs l = true → dropTrailWs l = l
  | [], _ => rfl
  | c :: cs, h => by
    cases cs with
    | nil =>
      simp only [lastNotWs, Bool.not_eq_true'] at h
      simp [dropTrailWs, h]
    | cons d ds =>
      have h2 : lastNotWs (d :: ds) = true := h
      have ih := dropTrailWs_id (d :: ds) h2
      have heq : dropTrailWs (c :: d :: ds) =
          if (dropTrailWs (d :: ds)).isEmpty = true then (if isPyWs c = true then [] else [c])
          else c :: dropTrailWs (d :: ds) := rfl
      rw [heq, if_neg (by rw [ih]; simp), ih]

/-- `List.dropWhile` fixes strings with a non-whitespace head. -/
theorem dropWhile_id_of_headNotWs (l : List Char) (h : headNotWs l = true) :
    l.dropWhile isPyWs = l := by
  cases l with
  | nil => rfl
  | cons c cs =>
    simp only [headNotWs, Bool.not_eq_true'] at h
    simp [List.dropWhile_cons, h]

/-- `trimWs` fixes strings trimmed on both sides. -/
theorem trimWs_id (l : List Char) (hh : headNotWs l = true) (hl : lastNotWs l = true) :
    trimWs l = l := by
  unfold trimWs
  rw [dropWhile_id_of_headNotWs l hh, dropTrailWs_id l hl]

/-- After `dropWhile` the head is not whitespace. -/
theorem headNotWs_dropWhile : ∀ l : List Char, headNotWs (l.dropWhile isPyWs) = true
  | [] => rfl
  | c :: cs => by
    by_cases h : isPyWs c = true
    · rw [List.dropWhile_cons, if_pos h]
      exact headNotWs_dropWhile cs
    · rw [List.dropWhile_cons, if_neg (by simp [h])]
      simp [headNotWs, bool_eq_false h]

/-- `dropTrailWs` preserves a non-whitespace head. -/
theorem headNotWs_dropTrailWs (l : List Char) (h : headNotWs l = true) :
    headNotWs (dropTrailWs l) = true := by
  cases l with
  | nil => rfl
  | cons b bs =>
    rcases dropTrailWs_head b bs with h0 | ⟨t, ht⟩
    · rw [h0]
      rfl
    · rw [ht]
      exact h

/-- `allWsSp` restricts to sublists. -/
theorem allWsSp_sublist (l m : List Char) (h : allWsSp m = true) (hs : l.Sublist m) :
    allWsSp l = true := by
  rw [allWsSp, List.all_eq_true]
  exact fun x hx => (List.all_eq_true.mp h) x (hs.subset hx)

/-- `canonAll` restricts to sublists. -/
theorem canonAll_sublist (l m : List Char) (h : canonAll m = true) (hs : l.Sublist m) :
    canonAll l = true := by
  rw [canonAll, List.all_eq_true]
  exact fun x hx => (List.all_eq_true.mp h) x (hs.subset hx)

/-- `noDblSp` is preserved by `dropWhile`. -/
theorem noDblSp_dropWhile : ∀ l : List Char, noDblSp l = true →
    noDblSp (l.dropWhile isPyWs) = true
  | [], _ => rfl
  | c :: cs, h => by
    by_cases hw : isPyWs c = true
    · rw [List.dropWhile_cons, if_pos hw]
      exact noDblSp_dropWhile cs (noDblSp_tail c cs h)
    · rw [List.dropWhile_cons, if_neg (by simp [hw])]
      exact h

/-- `noPW` is preserved by `dropWhile`. -/
theorem noPW_dropWhile : ∀ l : List Char, noPW l = true → noPW (l.dropWhile isPyWs) = true
  | [], _ => rfl
  | c :: cs, h => by
    by_cases hw : isPyWs c = true
    · rw [List.dropWhile_cons, if_pos hw]
      exact noPW_dropWhile cs (noPW_tail c cs h)
    · rw [List.dropWhile_cons, if_neg (by simp [hw])]
      exact h

/-- `noDblSp` is preserved by `dropTrailWs`. -/
theorem noDblSp_dropTrailWs : ∀ l : List Char, noDblSp l = true →
    noDblSp (dropTrailWs l) = true
  | [], _ => rfl
  | c :: cs, h => by
    by_cases he : (dropTrailWs cs).isEmpty = true
    · by_cases hw : isPyWs c = true
      · rw [show dropTrailWs (c :: cs) = [] from by simp [dropTrailWs, he, hw]]
        rfl
      · rw [show dropTrailWs (c :: cs) = [c] from by simp [dropTrailWs, he, bool_eq_false hw]]
        rfl
    · rw [show dropTrailWs (c :: cs) = c :: dropTrailWs cs from by simp [dropTrailWs, he]]
      have ih := noDblSp_dropTrailWs cs (noDblSp_tail c cs h)
      refine noDblSp_cons_build c _ ih ?_
      cases cs with
      | nil =>
        exfalso
        exact he (by simp [dropTrailWs])
      | cons y ys =>
        rcases dropTrailWs_head y ys with h0 | ⟨t, ht⟩
        · rw [h0] at he
          exact absurd rfl he
        · rw [ht]
          by_cases hwc : isPyWs c = true
          · refine Or.inr ?_
            simp only [noDblSp, Bool.and_eq_true] at h
            have hy : isPyWs y = false := by
              by_cases hwy : isPyWs y = true
              · exfalso
                rw [hwc, hwy] at h
                simpa using h.1
              · exact bool_eq_false hwy
            simp [headNotWs, hy]
          · exact Or.inl (bool_eq_false hwc)

/-- `noPW` is preserved by `dropTrailWs`. -/
theorem noPW_dropTrailWs : ∀ l : List Char, noPW l = true → noPW (dropTrailWs l) = true
  | [], _ => rfl
  | c :: cs, h => by
    by_cases he : (dropTrailWs cs).isEmpty = true
    · by_cases hw : isPyWs c = true
      · rw [show dropTrailWs (c :: cs) = [] from by simp [dropTrailWs, he, hw]]
        rfl
      · rw [show dropTrailWs (c :: cs) = [c] from by simp [dropTrailWs, he, bool_eq_false hw]]
        rfl
    · rw [show dropTrailWs (c :: cs) = c :: dropTrailWs cs from by simp [dropTrailWs, he]]
      have ih := noPW_dropTrailWs cs (noPW_tail c cs h)
      refine noPW_cons_build c _ ih ?_
      cases cs with
      | nil =>
        exfalso
        exact he (by simp [dropTrailWs])
      | cons y ys =>
        rcases dropTrailWs_head y ys with h0 | ⟨t, ht⟩
        · rw [h0] at he
          exact absurd rfl he
        · rw [ht]
          by_cases hpc : isPunct3 c = true
          · refine Or.inr ?_
            simp only [noPW, Bool.and_eq_true] at h
            have hy : isPyWs y = false := by
              by_cases hwy : isPyWs y = true
              · exfalso
                rw [hpc, hwy] at h
                simpa using h.1
              · exact bool_eq_false hwy
            simp [headNotWs, hy]
          · exact Or.inl (bool_eq_false hpc)

/-! ### Punctuation counts along the pipeline -/

/-- `quoteMap` creates no punctuation. -/
theorem quoteMap_punct (c : Char) (h : isPunct3 (quoteMap c) = true) : isPunct3 c = true := by
  by_cases ha : c = '\u2018' ∨ c = '\u2019' ∨ c = '\u00B4' ∨ c = '\u0060'
  · rw [show quoteMap c = '\u0027' from by unfold quoteMap; rw [if_pos ha]] at h
    exact absurd h (by decide)
  · by_cases hb : c = '\u201C' ∨ c = '\u201D' ∨ c = '\u201E' ∨ c = '\u201F' ∨ c = '\u2033'
    · rw [show quoteMap c = '\u0022' from by unfold quoteMap; rw [if_neg ha, if_pos hb]] at h
      exact absurd h (by decide)
    · rw [show quoteMap c = c from by unfold quoteMap; rw [if_neg ha, if_neg hb]] at h
      exact h

/-- `bulletMap` creates no punctuation. -/
theorem bulletMap_punct (c : Char) (h : isPunct3 (bulletMap c) = true) : isPunct3 c = true := by
  by_cases hb : isBullet c = true
  · rw [show bulletMap c = ' ' from by unfold bulletMap; rw [if_pos hb]] at h
    exact absurd h (by decide)
  · rw [show bulletMap c = c from by unfold bulletMap; rw [if_neg hb]] at h
    exact h

/-- A punctuation-reflecting character map does not increase the count. -/
theorem countP_map_le (f : Char → Char) (hf : ∀ c, isPunct3 (f c) = true → isPunct3 c = true)
    (l : List Char) : (l.map f).countP isPunct3 ≤ l.countP isPunct3 := by
  rw [List.countP_map]
  exact List.countP_mono_left (fun a _ h => hf a h)

/-! ### Behaviour of the punctuation-spacing scanner -/

/-- Punctuation characters are not whitespace. -/
theorem punct_not_ws (c : Char) (h : isPunct3 c = true) : isPyWs c = false := by
  simp only [isPunct3, Bool.or_eq_true, beq_iff_eq] at h
  rcases h with (rfl | rfl) | rfl <;> decide

/-- The head of a `dropWhile` result does not satisfy the predicate. -/
theorem dropWhile_head_not : ∀ (l : List Char) (p : Char) (r : List Char),
    l.dropWhile isPyWs = p :: r → isPyWs p = false
  | [], p, r, h => by cases h
  | c :: cs, p, r, h => by
    by_cases hw : isPyWs c = true
    · rw [List.dropWhile_cons, if_pos hw] at h
      exact dropWhile_head_not cs p r h
    · rw [List.dropWhile_cons, if_neg (by simp [hw])] at h
      cases h
      exact bool_eq_false hw

/-- A nonempty string with non-whitespace last character is not all
whitespace. -/
theorem dropWhile_ne_nil_of_lastNotWs : ∀ l : List Char, l ≠ [] → lastNotWs l = true →
    l.dropWhile isPyWs ≠ []
  | [], hne, _ => absurd rfl hne
  | c :: cs, _, hl => by
    by_cases hw : isPyWs c = true
    · rw [List.dropWhile_cons, if_pos hw]
      cases cs with
      | nil =>
        simp only [lastNotWs, Bool.not_eq_true'] at hl
        rw [hl] at hw
        cases hw
      | cons d ds =>
        exact dropWhile_ne_nil_of_lastNotWs (d :: ds) (by simp) hl
    · rw [List.dropWhile_cons, if_neg (by simp [hw])]
      simp

/-- No match fires when no punctuation is directly followed by
whitespace. -/
theorem pmatchAt_none_of_noPW (l : List Char) (h : noPW l = true) : pmatchAt l = none := by
  unfold pmatchAt
  cases hdw : l.dropWhile isPyWs with
  | nil => rfl
  | cons p r =>
    by_cases hp : isPunct3 p = true
    · cases r with
      | nil => simp [hp]
      | cons w r2 =>
        have hnp := noPW_dropWhile l h
        rw [hdw] at hnp
        simp only [noPW, Bool.and_eq_true] at hnp
        have hw : isPyWs w = false := by
          by_cases hww : isPyWs w = true
          · exfalso
            rw [hp, hww] at hnp
            simpa using hnp.1
          · exact bool_eq_false hww
        simp [hp, List.takeWhile_cons, hw]
    · simp [hp]

/-- Bounds for the length of a fired match. -/
theorem pmatchAt_bounds (l : List Char) (k : Nat) (h : pmatchAt l = some k) :
    1 ≤ k ∧ k ≤ l.length := by
  unfold pmatchAt at h
  cases hdw : l.dropWhile isPyWs with
  | nil =>
    rw [hdw] at h
    cases h
  | cons p r =>
    rw [hdw] at h
    by_cases hp : isPunct3 p = true
    · simp only [hp, if_true] at h
      by_cases h2 : 0 < (r.takeWhile isPyWs).length
      · rw [if_pos h2] at h
        cases h
        have hsplit : l.length = (l.takeWhile isPyWs).length + (l.dropWhile isPyWs).length := by
          conv_lhs => rw [← List.takeWhile_append_dropWhile (p := isPyWs) (l := l)]
          rw [List.length_append]
        rw [hdw] at hsplit
        have hr2 : (r.takeWhile isPyWs).length ≤ r.length :=
          (r.takeWhile_sublist _).length_le
        simp only [List.length_cons] at hsplit
        omega
      · rw [if_neg h2] at h
        cases h
    · simp [hp] at h

/-- The fuel argument of `pfAux` is irrelevant once it covers the string
length. -/
theorem pfAux_fuel : ∀ (n m : Nat) (l : List Char), l.length ≤ n → l.length ≤ m →
    pfAux n l = pfAux m l
  | 0, m, l, hn, _ => by
    have : l = [] := List.eq_nil_of_length_eq_zero (Nat.le_zero.mp hn)
    subst this
    cases m <;> rfl
  | Nat.succ n, 0, l, _, hm => by
    have : l = [] := List.eq_nil_of_length_eq_zero (Nat.le_zero.mp hm)
    subst this
    rfl
  | Nat.succ n, Nat.succ m, l, hn, hm => by
    cases l with
    | nil => rfl
    | cons c cs =>
      simp only [List.length_cons] at hn hm
      cases hma : pmatchAt (c :: cs) with
      | none =>
        show (match pmatchAt (c :: cs) with
          | some k => ' ' :: pfAux n ((c :: cs).drop k)
          | none => c :: pfAux n cs) =
          (match pmatchAt (c :: cs) with
          | some k => ' ' :: pfAux m ((c :: cs).drop k)
          | none => c :: pfAux m cs)
        rw [hma]
        rw [pfAux_fuel n m cs (by omega) (by omega)]
      | some k =>
        obtain ⟨hk1, _⟩ := pmatchAt_bounds _ _ hma
        show (match pmatchAt (c :: cs) with
          | some k => ' ' :: pfAux n ((c :: cs).drop k)
          | none => c :: pfAux n cs) =
          (match pmatchAt (c :: cs) with
          | some k => ' ' :: pfAux m ((c :: cs).drop k)
          | none => c :: pfAux m cs)
        rw [hma]
        show ' ' :: pfAux n ((c :: cs).drop k) = ' ' :: pfAux m ((c :: cs).drop k)
        rw [pfAux_fuel n m ((c :: cs).drop k)
          (by simp only [List.length_drop, List.length_cons]; omega)
          (by simp only [List.length_drop, List.length_cons]; omega)]

/-- Unfolding of `punctSpaceFix` when no match fires at the head. -/
theorem punctSpaceFix_cons_none (c : Char) (cs : List Char) (h : pmatchAt (c :: cs) = none) :
    punctSpaceFix (c :: cs) = c :: punctSpaceFix cs := by
  unfold punctSpaceFix
  simp only [List.length_cons, pfAux, h]

/-- Unfolding of `punctSpaceFix` when a match of length `k` fires. -/
theorem punctSpaceFix_cons_some (c : Char) (cs : List Char) (k : Nat)
    (h : pmatchAt (c :: cs) = some k) :
    punctSpaceFix (c :: cs) = ' ' :: punctSpaceFix ((c :: cs).drop k) := by
  obtain ⟨hk1, _⟩ := pmatchAt_bounds _ _ h
  unfold punctSpaceFix
  simp only [List.length_cons, pfAux, h]
  congr 1
  apply pfAux_fuel
  · simp only [List.length_drop, List.length_cons]
    omega
  · exact Nat.le_refl _

/-- The scanner fixes strings with no punctuation-whitespace adjacency. -/
theorem pfAux_id_of_noPW : ∀ (n : Nat) (l : List Char), noPW l = true → pfAux n l = l
  | 0, _, _ => rfl
  | Nat.succ _, [], _ => rfl
  | Nat.succ n, c :: cs, h => by
    simp only [pfAux, pmatchAt_none_of_noPW (c :: cs) h]
    rw [pfAux_id_of_noPW n cs (noPW_tail c cs h)]

/-- `punctSpaceFix` fixes strings with no punctuation-whitespace
adjacency. -/
theorem punctSpaceFix_id (l : List Char) (h : noPW l = true) : punctSpaceFix l = l :=
  pfAux_id_of_noPW l.length l h

/-- Characters of the scanner output come from the input or are spaces. -/
theorem mem_pfAux : ∀ (n : Nat) (l : List Char) (d : Char), d ∈ pfAux n l → d ∈ l ∨ d = ' '
  | 0, _, _, hd => Or.inl hd
  | Nat.succ _, [], _, hd => by cases hd
  | Nat.succ n, c :: cs, d, hd => by
    cases hma : pmatchAt (c :: cs) with
    | some k =>
      rw [show pfAux (Nat.succ n) (c :: cs) = ' ' :: pfAux n ((c :: cs).drop k) from by
        simp only [pfAux, hma]] at hd
      rcases List.mem_cons.mp hd with rfl | hm
      · exact Or.inr rfl
      · rcases mem_pfAux n _ d hm with h1 | h2
        · exact Or.inl ((List.drop_sublist k (c :: cs)).subset h1)
        · exact Or.inr h2
    | none =>
      rw [show pfAux (Nat.succ n) (c :: cs) = c :: pfAux n cs from by
        simp only [pfAux, hma]] at hd
      rcases List.mem_cons.mp hd with rfl | hm
      · exact Or.inl (List.mem_cons_self _ _)
      · rcases mem_pfAux n cs d hm with h1 | h2
        · exact Or.inl (List.mem_cons_of_mem c h1)
        · exact Or.inr h2

/-! ### Firing the substitution around a single punctuation character -/

/-- Match length when the punctuation heads the string. -/
theorem pmatchAt_fire_nosp (p : Char) (hp : isPunct3 p = true) (v2 : List Char)
    (hv : headNotWs v2 = true) : pmatchAt (p :: ' ' :: v2) = some 2 := by
  have hpw : isPyWs p = false := punct_not_ws p hp
  have hdw : (p :: ' ' :: v2).dropWhile isPyWs = p :: ' ' :: v2 := by
    rw [List.dropWhile_cons, if_neg (by simp [hpw])]
  have htw0 : (p :: ' ' :: v2).takeWhile isPyWs = [] := by
    rw [List.takeWhile_cons, if_neg (by simp [hpw])]
  have htw : (' ' :: v2).takeWhile isPyWs = [' '] := by
    rw [List.takeWhile_cons, if_pos (by decide)]
    cases v2 with
    | nil => rfl
    | cons w ws =>
      simp only [headNotWs, Bool.not_eq_true'] at hv
      rw [List.takeWhile_cons, if_neg (by simp [hv])]
  unfold pmatchAt
  rw [hdw]
  simp [hp, htw, htw0]

/-- Match length when one space precedes the punctuation. -/
theorem pmatchAt_fire_sp (p : Char) (hp : isPunct3 p = true) (v2 : List Char)
    (hv : headNotWs v2 = true) : pmatchAt (' ' :: p :: ' ' :: v2) = some 3 := by
  have hpw : isPyWs p = false := punct_not_ws p hp
  have hdw : (' ' :: p :: ' ' :: v2).dropWhile isPyWs = p :: ' ' :: v2 := by
    rw [List.dropWhile_cons, if_pos (by decide), List.dropWhile_cons, if_neg (by simp [hpw])]
  have htw0 : (' ' :: p :: ' ' :: v2).takeWhile isPyWs = [' '] := by
    rw [List.takeWhile_cons, if_pos (by decide), List.takeWhile_cons, if_neg (by simp [hpw])]
  have htw : (' ' :: v2).takeWhile isPyWs = [' '] := by
    rw [List.takeWhile_cons, if_pos (by decide)]
    cases v2 with
    | nil => rfl
    | cons w ws =>
      simp only [headNotWs, Bool.not_eq_true'] at hv
      rw [List.takeWhile_cons, if_neg (by simp [hv])]
  unfold pmatchAt
  rw [hdw]
  simp [hp, htw, htw0]

/-- The substitution around a head punctuation group. -/
theorem punctSpaceFix_fire_nosp (p : Char) (hp : isPunct3 p = true) (v2 : List Char)
    (hv : headNotWs v2 = true) (hvp : v2.countP isPunct3 = 0) :
    punctSpaceFix (p :: ' ' :: v2) = ' ' :: v2 := by
  rw [punctSpaceFix_cons_some p (' ' :: v2) 2 (pmatchAt_fire_nosp p hp v2 hv)]
  show ' ' :: punctSpaceFix v2 = ' ' :: v2
  rw [punctSpaceFix_id v2 (noPW_of_no_punct v2 (no_punct_of_countP v2 hvp))]

/-- The substitution around a space-preceded punctuation group. -/
theorem punctSpaceFix_fire_sp (p : Char) (hp : isPunct3 p = true) (v2 : List Char)
    (hv : headNotWs v2 = true) (hvp : v2.countP isPunct3 = 0) :
    punctSpaceFix (' ' :: p :: ' ' :: v2) = ' ' :: v2 := by
  rw [punctSpaceFix_cons_some ' ' (p :: ' ' :: v2) 3 (pmatchAt_fire_sp p hp v2 hv)]
  show ' ' :: punctSpaceFix v2 = ' ' :: v2
  rw [punctSpaceFix_id v2 (noPW_of_no_punct v2 (no_punct_of_countP v2 hvp))]

/-- No match fires while scanning inside a punctuation-free region that
does not end in whitespace. -/
theorem pmatchAt_append_none (u r : List Char) (hu : u.countP isPunct3 = 0)
    (hne : u ≠ []) (hl : lastNotWs u = true) : pmatchAt (u ++ r) = none := by
  have hdu : u.dropWhile isPyWs ≠ [] := dropWhile_ne_nil_of_lastNotWs u hne hl
  have hda : (u ++ r).dropWhile isPyWs = u.dropWhile isPyWs ++ r := by
    rw [List.dropWhile_append, if_neg (by simp [List.isEmpty_iff, hdu])]
  cases hdw : u.dropWhile isPyWs with
  | nil => exact absurd hdw hdu
  | cons p pr =>
    have hpu : p ∈ u := (List.dropWhile_sublist isPyWs).subset (hdw ▸ List.mem_cons_self p pr)
    have hppunct : isPunct3 p = false := no_punct_of_countP u hu p hpu
    unfold pmatchAt
    rw [hda, hdw, List.cons_append]
    simp [hppunct]

/-- The scanner passes over a punctuation-free region that does not end in
whitespace. -/
theorem punctSpaceFix_append : ∀ u r : List Char, u.countP isPunct3 = 0 →
    lastNotWs u = true → punctSpaceFix (u ++ r) = u ++ punctSpaceFix r
  | [], r, _, _ => by simp
  | c :: u, r, hu, hl => by
    have hnone : pmatchAt ((c :: u) ++ r) = none :=
      pmatchAt_append_none (c :: u) r hu (by simp) hl
    rw [List.cons_append] at hnone ⊢
    rw [punctSpaceFix_cons_none c (u ++ r) hnone]
    congr 1
    cases u with
    | nil => simp
    | cons d ds =>
      have hu2 : (d :: ds).countP isPunct3 = 0 := by
        rw [List.countP_cons] at hu
        omega
      exact punctSpaceFix_append (d :: ds) r hu2 hl

/-- Splitting a string around its unique punctuation character. -/
theorem countP_one_split : ∀ l : List Char, l.countP isPunct3 = 1 →
    ∃ u p v, l = u ++ p :: v ∧ isPunct3 p = true ∧
      u.countP isPunct3 = 0 ∧ v.countP isPunct3 = 0
  | [], h => by
    rw [List.countP_nil] at h
    cases h
  | c :: cs, h => by
    rw [List.countP_cons] at h
    by_cases hc : isPunct3 c = true
    · rw [if_pos hc] at h
      have hcs : cs.countP isPunct3 = 0 := by omega
      exact ⟨[], c, cs, rfl, hc, by simp, hcs⟩
    · rw [if_neg hc] at h
      have h1 : cs.countP isPunct3 = 1 := by omega
      obtain ⟨u, p, v, heq, hp, hu, hv⟩ := countP_one_split cs h1
      exact ⟨c :: u, p, v, by rw [heq]; rfl, hp, by simp [List.countP_cons, hc, hu], hv⟩

/-- `noDblSp` restricts to a prefix. -/
theorem noDblSp_append_left : ∀ u v : List Char, noDblSp (u ++ v) = true → noDblSp u = true
  | [], _, _ => rfl
  | [_], _, _ => rfl
  | a :: b :: r, v, h => by
    simp only [List.cons_append, noDblSp, Bool.and_eq_true] at h
    simp only [noDblSp, Bool.and_eq_true]
    exact ⟨h.1, noDblSp_append_left (b :: r) v (by simpa using h.2)⟩

/-- `noDblSp` restricts to a suffix. -/
theorem noDblSp_append_right : ∀ u v : List Char, noDblSp (u ++ v) = true → noDblSp v = true
  | [], _, h => h
  | c :: cs, v, h => noDblSp_append_right cs v (noDblSp_tail c (cs ++ v) h)

/-- Adjacent characters anywhere in the string are not both whitespace. -/
theorem noDblSp_extract : ∀ (u : List Char) (a b : Char) (r : List Char),
    noDblSp (u ++ a :: b :: r) = true → (isPyWs a && isPyWs b) = false
  | [], a, b, r, h => by
    simp only [List.nil_append, noDblSp, Bool.and_eq_true] at h
    have h1 := h.1
    cases hab : (isPyWs a && isPyWs b)
    · rfl
    · rw [hab] at h1
      simpa using h1
  | c :: cs, a, b, r, h => noDblSp_extract cs a b r (noDblSp_tail c _ h)

/-- A whitespace character of an `allWsSp` string is a space. -/
theorem allWsSp_mem (l : List Char) (h : allWsSp l = true) (c : Char) (hc : c ∈ l)
    (hw : isPyWs c = true) : c = ' ' := by
  have h2 := List.all_eq_true.mp h c hc
  rw [hw] at h2
  simpa using h2

/-- `lastNotWs` over a single appended character. -/
theorem lastNotWs_concat : ∀ (u : List Char) (a : Char), lastNotWs (u ++ [a]) = !isPyWs a
  | [], _ => rfl
  | c :: u, a => by
    rw [List.cons_append]
    cases hu : u ++ [a] with
    | nil => exact absurd hu (by simp)
    | cons d r =>
      rw [show lastNotWs (c :: d :: r) = lastNotWs (d :: r) from rfl, ← hu]
      exact lastNotWs_concat u a

/-- `lastNotWs` only depends on a nonempty suffix. -/
theorem lastNotWs_append : ∀ u v : List Char, v ≠ [] → lastNotWs (u ++ v) = lastNotWs v
  | [], _, _ => rfl
  | c :: u, v, hv => by
    rw [List.cons_append]
    cases hu : u ++ v with
    | nil => exact absurd (List.append_eq_nil.mp hu).2 hv
    | cons d r =>
      rw [show lastNotWs (c :: d :: r) = lastNotWs (d :: r) from rfl, ← hu]
      exact lastNotWs_append u v hv

/-- A string whose `noDblSp` extension by a space holds ends in
non-whitespace. -/
theorem lastNotWs_of_noDbl_concat_sp (u0 : List Char)
    (h : noDblSp (u0 ++ [' ']) = true) : lastNotWs u0 = true := by
  rcases List.eq_nil_or_concat u0 with rfl | ⟨u1, x, rfl⟩
  · rfl
  · rw [List.concat_eq_append, lastNotWs_concat]
    have hx := noDblSp_extract u1 x ' ' [] (by
      rw [List.concat_eq_append] at h
      simpa [List.append_assoc] using h)
    have hsp : isPyWs ' ' = true := by decide
    rw [hsp, Bool.and_true] at hx
    rw [hx]
    rfl

/-- Gluing `noDblSp` across a single inserted space. -/
theorem noDblSp_append_single : ∀ u v : List Char, noDblSp u = true → noDblSp v = true →
    lastNotWs u = true → headNotWs v = true → noDblSp (u ++ ' ' :: v) = true
  | [], v, _, hv, _, hhv => noDblSp_cons_build ' ' v hv (Or.inr hhv)
  | [c], v, _, hv, hlu, hhv => by
    simp only [lastNotWs, Bool.not_eq_true'] at hlu
    exact noDblSp_cons_build c _ (noDblSp_cons_build ' ' v hv (Or.inr hhv)) (Or.inl hlu)
  | a :: b :: u, v, hu, hv, hlu, hhv => by
    have ih := noDblSp_append_single (b :: u) v (noDblSp_tail a _ hu) hv hlu hhv
    rw [List.cons_append]
    refine noDblSp_cons_build a _ ih ?_
    by_cases hwa : isPyWs a = true
    · refine Or.inr ?_
      simp only [noDblSp, Bool.and_eq_true] at hu
      have hb : isPyWs b = false := by
        by_cases hwb : isPyWs b = true
        · exfalso
          rw [hwa, hwb] at hu
          simpa using hu.1
        · exact bool_eq_false hwb
      rw [List.cons_append]
      simp [headNotWs, hb]
    · exact Or.inl (bool_eq_false hwa)

/-- Gluing `noPW` around a punctuation character not followed by
whitespace. -/
theorem noPW_append_mid : ∀ (u : List Char) (p : Char) (v : List Char),
    u.countP isPunct3 = 0 → v.countP isPunct3 = 0 → headNotWs v = true →
    noPW (u ++ p :: v) = true
  | [], p, v, _, hv, hhv =>
    noPW_cons_build p v (noPW_of_no_punct v (no_punct_of_countP v hv)) (Or.inr hhv)
  | c :: u, p, v, hu, hv, hhv => by
    rw [List.cons_append]
    have hcu : isPunct3 c = false := no_punct_of_countP (c :: u) hu c (List.mem_cons_self c u)
    have hu2 : u.countP isPunct3 = 0 := by
      rw [List.countP_cons] at hu
      have h0 : (if isPunct3 c = true then 1 else 0) = 0 := by rw [hcu]; rfl
      omega
    exact noPW_cons_build c _ (noPW_append_mid u p v hu2 hv hhv) (Or.inl hcu)

/-- After the punctuation-spacing pass of a collapsed, trimmed string with
at most one punctuation character, there is no double space and no
punctuation-whitespace adjacency. -/
theorem pf_props (t4 : List Char)
    (hws : allWsSp t4 = true) (hdbl : noDblSp t4 = true)
    (hlast : lastNotWs t4 = true) (hcnt : t4.countP isPunct3 ≤ 1) :
    noDblSp (punctSpaceFix t4) = true ∧ noPW (punctSpaceFix t4) = true := by
  rcases Nat.le_one_iff_eq_zero_or_eq_one.mp hcnt with h0 | h1
  · have hnoPW := noPW_of_no_punct t4 (no_punct_of_countP t4 h0)
    rw [punctSpaceFix_id t4 hnoPW]
    exact ⟨hdbl, hnoPW⟩
  · obtain ⟨u, p, v, rfl, hp, hu, hv⟩ := countP_one_split _ h1
    cases v with
    | nil =>
      have hnoPW : noPW (u ++ [p]) = true := noPW_append_mid u p [] hu (by simp) rfl
      rw [punctSpaceFix_id _ hnoPW]
      exact ⟨hdbl, hnoPW⟩
    | cons w v2 =>
      by_cases hww : isPyWs w = true
      · have hwsp : w = ' ' := allWsSp_mem _ hws w (by simp) hww
        subst hwsp
        cases v2 with
        | nil =>
          exfalso
          rw [lastNotWs_append u (p :: [' ']) (by simp)] at hlast
          have : lastNotWs (p :: [' ']) = false := rfl
          rw [this] at hlast
          cases hlast
        | cons w2 r2 =>
          have hh2 : headNotWs (w2 :: r2) = true := by
            have hx := noDblSp_extract (u ++ [p]) ' ' w2 r2
              (by simpa [List.append_assoc] using hdbl)
            have hsp : isPyWs ' ' = true := by decide
            rw [hsp, Bool.true_and] at hx
            simp [headNotWs, hx]
          have hv2 : (w2 :: r2).countP isPunct3 = 0 := by
            rw [List.countP_cons, show (if isPunct3 ' ' = true then 1 else 0) = 0 from rfl] at hv
            omega
          have hsfx : noDblSp (w2 :: r2) = true := by
            have h2 := noDblSp_append_right u _ hdbl
            exact noDblSp_tail ' ' _ (noDblSp_tail p _ h2)
          rcases List.eq_nil_or_concat u with rfl | ⟨u0, a, rfl⟩
          · rw [List.nil_append]
            rw [punctSpaceFix_fire_nosp p hp (w2 :: r2) hh2 hv2]
            refine ⟨noDblSp_cons_build ' ' _ hsfx (Or.inr hh2), ?_⟩
            refine noPW_of_no_punct _ (no_punct_of_countP _ ?_)
            rw [List.countP_cons, show (if isPunct3 ' ' = true then 1 else 0) = 0 from rfl]
            omega
          · rw [List.concat_eq_append] at hu hdbl hws hlast ⊢
            by_cases hwa : isPyWs a = true
            · have ha : a = ' ' := allWsSp_mem _ hws a (by simp) hwa
              subst ha
              have hre : (u0 ++ [' ']) ++ p :: ' ' :: w2 :: r2 =
                  u0 ++ (' ' :: p :: ' ' :: w2 :: r2) := by
                rw [List.append_assoc]
                rfl
              rw [hre]
              have hu0cnt : u0.countP isPunct3 = 0 := by
                rw [List.countP_append] at hu
                omega
              have hu0dbl : noDblSp (u0 ++ [' ']) = true := noDblSp_append_left _ _ hdbl
              have hu0last : lastNotWs u0 = true := lastNotWs_of_noDbl_concat_sp u0 hu0dbl
              rw [punctSpaceFix_append u0 _ hu0cnt hu0last,
                punctSpaceFix_fire_sp p hp (w2 :: r2) hh2 hv2]
              refine ⟨noDblSp_append_single u0 (w2 :: r2)
                (noDblSp_append_left u0 [' '] hu0dbl) hsfx hu0last hh2, ?_⟩
              refine noPW_of_no_punct _ (no_punct_of_countP _ ?_)
              rw [List.countP_append, List.countP_cons,
                show (if isPunct3 ' ' = true then 1 else 0) = 0 from rfl]
              omega
            · have hlu : lastNotWs (u0 ++ [a]) = true := by
                rw [lastNotWs_concat, bool_eq_false hwa]
                rfl
              rw [punctSpaceFix_append (u0 ++ [a]) _ hu hlu,
                punctSpaceFix_fire_nosp p hp (w2 :: r2) hh2 hv2]
              refine ⟨noDblSp_append_single (u0 ++ [a]) (w2 :: r2)
                (noDblSp_append_left _ _ hdbl) hsfx hlu hh2, ?_⟩
              refine noPW_of_no_punct _ (no_punct_of_countP _ ?_)
              rw [List.countP_append, List.countP_cons,
                show (if isPunct3 ' ' = true then 1 else 0) = 0 from rfl]
              omega
      · have hnoPW : noPW (u ++ p :: w :: v2) = true :=
          noPW_append_mid u p (w :: v2) hu hv (by simp [headNotWs, bool_eq_false hww])
        rw [punctSpaceFix_id _ hnoPW]
        exact ⟨hdbl, hnoPW⟩

/-- `collapseWs` fixes already-collapsed strings that do not end in
whitespace. -/
theorem collapseWs_id : ∀ l, allWsSp l = true → noDblSp l = true → lastNotWs l = true →
    collapseWs l = l
  | [], _, _, _ => rfl
  | [c], _, _, hl => by
    simp only [lastNotWs, Bool.not_eq_true'] at hl
    simp [collapseWs, hl]
  | c :: d :: cs, ha, hd, hl => by
    have ha2 : allWsSp (d :: cs) = true := by
      rw [allWsSp, List.all_eq_true] at ha ⊢
      exact fun x hx => ha x (List.mem_cons_of_mem c hx)
    have hd2 := noDblSp_tail c _ hd
    have hl2 : lastNotWs (d :: cs) = true := hl
    have ih := collapseWs_id (d :: cs) ha2 hd2 hl2
    by_cases hwc : isPyWs c = true
    · have hc : c = ' ' := allWsSp_mem _ ha c (List.mem_cons_self c _) hwc
      have hwd : isPyWs d = false := by
        simp only [noDblSp, Bool.and_eq_true] at hd
        by_cases hwd2 : isPyWs d = true
        · exfalso
          rw [hwc, hwd2] at hd
          simpa using hd.1
        · exact bool_eq_false hwd2
      rw [show collapseWs (c :: d :: cs) = ' ' :: collapseWs (d :: cs) from by
        simp [collapseWs, hwc, hwd]]
      rw [ih, hc]
    · rw [show collapseWs (c :: d :: cs) = c :: collapseWs (d :: cs) from by
        simp [collapseWs, bool_eq_false hwc]]
      rw [ih]

/-- `allWsSp` transfers along a subset-up-to-spaces relation. -/
theorem allWsSp_of_subset (l m : List Char) (hm : allWsSp m = true)
    (hsub : ∀ d ∈ l, d ∈ m ∨ d = ' ') : allWsSp l = true := by
  rw [allWsSp, List.all_eq_true]
  intro x hx
  rcases hsub x hx with hm2 | rfl
  · exact List.all_eq_true.mp hm x hm2
  · decide

/-- `canonAll` transfers along a subset-up-to-spaces relation. -/
theorem canonAll_of_subset (l m : List Char) (hm : canonAll m = true)
    (hsub : ∀ d ∈ l, d ∈ m ∨ d = ' ') : canonAll l = true := by
  rw [canonAll, List.all_eq_true]
  intro x hx
  rcases hsub x hx with hm2 | rfl
  · exact List.all_eq_true.mp hm x hm2
  · decide

/-- Characters of the trimmed scanner output come from the input or are
spaces. -/
theorem mem_trim_pf (t4 : List Char) : ∀ d ∈ trimWs (punctSpaceFix t4), d ∈ t4 ∨ d = ' ' := by
  intro d hd
  have hs1 : (trimWs (punctSpaceFix t4)).Sublist (punctSpaceFix t4) :=
    (dropTrailWs_sublist _).trans (List.dropWhile_sublist _)
  exact mem_pfAux _ _ d (hs1.subset hd)

/-- Doubly lower-casing a string is the same as doing it once. -/
theorem map_pyLower_idem (l : List Char) : (l.map pyLower).map pyLower = l.map pyLower := by
  rw [List.map_map]
  exact List.map_congr_left (fun a _ => pyLower_idem a)

/-- A canonical, collapsed, trimmed, adjacency-free string is a fixed point
of the whole `normalize_text` pipeline. -/
theorem normChars_fixed (flag : Bool) (t : List Char)
    (hcanon : canonAll t = true) (hws : allWsSp t = true) (hdbl : noDblSp t = true)
    (hhead : headNotWs t = true) (hlast : lastNotWs t = true) (hnoPW : noPW t = true)
    (hlow : flag = true → t.map pyLower = t) :
    normChars flag t = t := by
  simp only [normChars]
  rw [nfkdStrip_of_canon t hcanon, map_quoteMap_of_canon t hcanon,
    map_bulletMap_of_canon t hcanon, collapseWs_id t hws hdbl hlast,
    trimWs_id t hhead hlast, punctSpaceFix_id t hnoPW, trimWs_id t hhead hlast]
  cases flag
  · rfl
  · simpa using hlow rfl

/-- Idempotence of `normChars` on inputs whose NFKD decomposition contains
at most one colon, comma or semicolon. -/
theorem normChars_idem (flag : Bool) (x : List Char)
    (h : (nfkdStrip x).countP isPunct3 ≤ 1) :
    normChars flag (normChars flag x) = normChars flag x := by
  have hx : normChars flag x =
      (if flag then
        (trimWs (punctSpaceFix (trimWs (collapseWs
          (((nfkdStrip x).map quoteMap).map bulletMap))))).map pyLower
      else trimWs (punctSpaceFix (trimWs (collapseWs
        (((nfkdStrip x).map quoteMap).map bulletMap))))) := rfl
  rw [hx]
  set t3 := ((nfkdStrip x).map quoteMap).map bulletMap with ht3
  set t4 := trimWs (collapseWs t3) with ht4
  set t5 := trimWs (punctSpaceFix t4) with ht5
  -- facts about the intermediate stages of the first pass
  have hcanon3 : canonAll t3 = true := canonAll_t3 x
  have hcnt3 : t3.countP isPunct3 ≤ 1 := by
    rw [ht3]
    have c2 := countP_map_le quoteMap quoteMap_punct (nfkdStrip x)
    have c3 := countP_map_le bulletMap bulletMap_punct ((nfkdStrip x).map quoteMap)
    omega
  have hs1 : (trimWs (collapseWs t3)).Sublist (collapseWs t3) :=
    (dropTrailWs_sublist _).trans (List.dropWhile_sublist _)
  have hws4 : allWsSp t4 = true := allWsSp_sublist t4 _ (allWsSp_collapseWs t3) hs1
  have hdbl4 : noDblSp t4 = true :=
    noDblSp_dropTrailWs _ (noDblSp_dropWhile _ (noDblSp_collapseWs t3))
  have hhead4 : headNotWs t4 = true := headNotWs_dropTrailWs _ (headNotWs_dropWhile _)
  have hlast4 : lastNotWs t4 = true := lastNotWs_dropTrailWs _
  have hcnt4 : t4.countP isPunct3 ≤ 1 := by
    rw [ht4]
    have c4 := hs1.countP_le isPunct3
    have c5 := countP_collapseWs_le t3
    omega
  have hcanonc : canonAll (collapseWs t3) = true :=
    canonAll_of_subset (collapseWs t3) t3 hcanon3 (mem_collapseWs t3)
  have hcanon4 : canonAll t4 = true := canonAll_sublist t4 (collapseWs t3) hcanonc hs1
  obtain ⟨pdbl, pnoPW⟩ := pf_props t4 hws4 hdbl4 hlast4 hcnt4
  have hdbl5 : noDblSp t5 = true := noDblSp_dropTrailWs _ (noDblSp_dropWhile _ pdbl)
  have hnoPW5 : noPW t5 = true := noPW_dropTrailWs _ (noPW_dropWhile _ pnoPW)
  have hhead5 : headNotWs t5 = true := headNotWs_dropTrailWs _ (headNotWs_dropWhile _)
  have hlast5 : lastNotWs t5 = true := lastNotWs_dropTrailWs _
  have hmem5 : ∀ d ∈ t5, d ∈ t4 ∨ d = ' ' := mem_trim_pf t4
  have hws5 : allWsSp t5 = true := allWsSp_of_subset t5 t4 hws4 hmem5
  have hcanon5 : canonAll t5 = true := canonAll_of_subset t5 t4 hcanon4 hmem5
  cases flag
  · exact normChars_fixed false t5 hcanon5 hws5 hdbl5 hhead5 hlast5 hnoPW5
      (fun hcontra => by cases hcontra)
  · exact normChars_fixed true (t5.map pyLower) (canonAll_map_pyLower t5 hcanon5)
      (allWsSp_map_pyLower t5 hws5) (noDblSp_map_pyLower t5 hdbl5)
      (headNotWs_map_pyLower t5 hhead5) (lastNotWs_map_pyLower t5 hlast5)
      (noPW_map_pyLower t5 hnoPW5) (fun _ => map_pyLower_idem t5)

/-- C9 (amended): `normalize_text` is idempotent for a fixed case-folding
flag on every input whose NFKD decomposition contains at most one colon,
comma or semicolon; it is not idempotent in general (see the counterexample
"x ; : y", where two punctuation groups make the first pass emit a double
space; compatibility decompositions such as U+FF1A → ':' contribute to the
punctuation count as well). -/
theorem claim9_normalize_idempotent (s : String) (flag : Bool)
    (h : (nfkdStrip s.toList).countP isPunct3 ≤ 1) :
    normalize_text (normalize_text s flag) flag = normalize_text s flag := by
  unfold normalize_text
  show (⟨normChars flag (normChars flag s.toList)⟩ : String) = ⟨normChars flag s.toList⟩
  rw [normChars_idem flag s.toList h]

/-- C9 witness: idempotence on a one-colon input. -/
theorem claim9_witness :
    (nfkdStrip ("Paper: A Study").toList).countP isPunct3 ≤ 1 ∧
      normalize_text (normalize_text ("Paper: A Study") true) true =
        normalize_text ("Paper: A Study") true :=
  ⟨by decide, claim9_normalize_idempotent ("Paper: A Study") true (by decide)⟩

end ScrapeBiblio
